import Mathlib

/-!
Verification of the in-memory versioned artifact store
(`artifactservice` package: `inMemoryService`, `artifactKey`).

The store is a mutex-guarded ordered map from an encoded composite key
(appName, userID, sessionID, fileName, reverse-ordered version) to an
opaque payload.  We embed the codec, the ordered-map primitives and the
five public operations (Save, Load, Delete, List, Versions) as
executable Lean functions, and prove the spec's testable properties.

Go strings are byte strings; we model them as `List Nat` (each element a
byte value).  Go `int64` is modelled as `Int`; the reverse encoding of
the version applies the two's-complement wrap `% 2 ^ 64` explicitly,
mirroring the fixed-width order-preserving machine encoding.
-/

set_option maxHeartbeats 1000000

namespace ArtifactService

/-- Byte strings: the model of Go `string` values (a list of byte values). -/
abbrev GoString := List Nat

/-- Comparison of two byte values, mirroring `bytes.Compare` on single bytes. -/
def natCmp (a b : Nat) : Ordering :=
  if a < b then .lt else if b < a then .gt else .eq

/-- Lexicographic comparison of byte strings, mirroring Go string comparison
(`bytes.Compare` order, which `rsc.io/omap` uses for its key order). -/
def lexCmp : List Nat → List Nat → Ordering
  | [], [] => .eq
  | [], _ :: _ => .lt
  | _ :: _, [] => .gt
  | a :: as, b :: bs =>
    match natCmp a b with
    | .eq => lexCmp as bs
    | o => o

/-- Boolean test for `x ≤ y` in the byte-string order (used for the
inclusive scan bounds `lo ≤ key ≤ hi` of the ordered map). -/
def bleLex (x y : List Nat) : Bool :=
  match lexCmp x y with
  | .gt => false
  | _ => true

/-!
The ordered key codec.

Modelled from the spec: the repository's `artifactKey.Encode`/`Decode`
delegate the byte-level work to the `rsc.io/ordered` library, whose
source is outside this repository.  Per the spec the codec uses "a
self-delimiting scheme for each string field (so that no field's content
can produce ambiguous boundaries) and a fixed-width order-preserving
encoding for the integer version with its sort order inverted".  We
realise exactly that contract: each string field is emitted with the
byte `0` escaped to `0 255` and a terminator `0 1`, and the version `v`
is emitted as the 8 big-endian bytes of `maxInt64 - v` (two's-complement
wrap applied), which inverts the sort order of the `int64` range.
-/

/-- Escape of one byte inside an encoded string field: the byte `0` becomes
the pair `0 255`, every other byte stands for itself. -/
def escByte (b : Nat) : List Nat :=
  if b = 0 then [0, 255] else [b]

/-- Self-delimiting encoding of one string field: escaped bytes followed by
the terminator `0 1`. -/
def encodeString : GoString → List Nat
  | [] => [0, 1]
  | b :: s => escByte b ++ encodeString s

/-- Decoder for one string field: returns the decoded field and the
remaining input, or `none` on malformed input. -/
def decodeString : List Nat → Option (GoString × List Nat)
  | [] => none
  | 0 :: rest =>
    match rest with
    | 1 :: r => some ([], r)
    | 255 :: r =>
      match decodeString r with
      | some (s, r2) => some (0 :: s, r2)
      | none => none
    | _ => none
  | b :: rest =>
    match decodeString rest with
    | some (s, r2) => some (b :: s, r2)
    | none => none

/-- Big-endian base-256 digits of `n`, fixed width `w`. -/
def beBytes : Nat → Nat → List Nat
  | 0, _ => []
  | w + 1, n => (n / 256 ^ w) % 256 :: beBytes w (n % 256 ^ w)

/-- Decoder for a fixed-width big-endian number: returns the value and the
remaining input. -/
def decodeBE : Nat → List Nat → Option (Nat × List Nat)
  | 0, l => some (0, l)
  | _ + 1, [] => none
  | w + 1, b :: l =>
    match decodeBE w l with
    | some (u, r) => some (b * 256 ^ w + u, r)
    | none => none

/-- Largest `int64` value (`math.MaxInt64`). -/
def maxInt64 : Int := 2 ^ 63 - 1

/-- Reverse-order numeric image of a version: `maxInt64 - v` with the
two's-complement wrap of the 8-byte machine representation. -/
def revNat (v : Int) : Nat :=
  ((maxInt64 - v) % (2 ^ 64)).toNat

/-- Fixed-width order-inverting encoding of the `int64` version
(`ordered.Rev` over the version number). -/
def encodeRev (v : Int) : List Nat :=
  beBytes 8 (revNat v)

/-- Inverse of `revNat` on the `int64` range. -/
def decodeRevVal (n : Nat) : Int :=
  maxInt64 - (n : Int)

/-- Composite identifier of one stored artifact record
(`artifactKey` in the source). -/
structure artifactKey where
  AppName : GoString
  UserID : GoString
  SessionID : GoString
  FileName : GoString
  Version : Int
deriving DecidableEq, Repr

/-- Encoding of an `artifactKey` into the byte string used as the ordered
map key (`artifactKey.Encode`). -/
def artifactKey.Encode (k : artifactKey) : List Nat :=
  encodeString k.AppName ++ encodeString k.UserID ++ encodeString k.SessionID ++
    encodeString k.FileName ++ encodeRev k.Version

/-- Decoding of a map key back into an `artifactKey`
(`artifactKey.Decode`); fails on malformed input. -/
def artifactKey.Decode (l : List Nat) : Option artifactKey := do
  let (a, l) ← decodeString l
  let (u, l) ← decodeString l
  let (s, l) ← decodeString l
  let (f, l) ← decodeString l
  let (n, l) ← decodeBE 8 l
  if l = [] then
    some ⟨a, u, s, f, decodeRevVal n⟩
  else
    none

/-- Int64 range predicate for version values. -/
def int64Range (v : Int) : Prop :=
  -(2 ^ 63) ≤ v ∧ v < 2 ^ 63

instance (v : Int) : Decidable (int64Range v) := by
  unfold int64Range
  infer_instance

/-- Strict tuple order on artifact keys: lexicographic on the four string
fields, then reverse numeric on the version. -/
def keyLt (k1 k2 : artifactKey) : Prop :=
  lexCmp k1.AppName k2.AppName = .lt ∨
  (k1.AppName = k2.AppName ∧ (lexCmp k1.UserID k2.UserID = .lt ∨
    (k1.UserID = k2.UserID ∧ (lexCmp k1.SessionID k2.SessionID = .lt ∨
      (k1.SessionID = k2.SessionID ∧ (lexCmp k1.FileName k2.FileName = .lt ∨
        (k1.FileName = k2.FileName ∧ k2.Version < k1.Version)))))))

instance (k1 k2 : artifactKey) : Decidable (keyLt k1 k2) := by
  unfold keyLt
  infer_instance

/-!
The ordered map (`rsc.io/omap`) and the in-memory service.

The map is modelled as a list of key-value pairs kept strictly sorted by
byte-string key; `Scan` iterates the inclusive range `lo ≤ key ≤ hi` in
key order, `DeleteRange` removes that same inclusive range.
-/

/-- Opaque artifact payload (model of `*genai.Part`: the store never
inspects it, only stores and returns the handle). -/
structure Part where
  id : Nat
deriving DecidableEq, Repr

/-- The backing ordered map: key-value pairs sorted by encoded key. -/
abbrev Store := List (List Nat × Part)

namespace omap

/-- Point lookup (`omap.Map.Get`). -/
def Get (m : Store) (k : List Nat) : Option Part :=
  (m.find? (fun p => p.1 = k)).map (fun p => p.2)

/-- Insert or overwrite at a key, keeping the list sorted
(`omap.Map.Set`). -/
def Set (m : Store) (k : List Nat) (v : Part) : Store :=
  match m with
  | [] => [(k, v)]
  | (k0, v0) :: rest =>
    match lexCmp k k0 with
    | .lt => (k, v) :: (k0, v0) :: rest
    | .eq => (k, v) :: rest
    | .gt => (k0, v0) :: Set rest k v

/-- Remove one key if present (`omap.Map.Delete`). -/
def Delete (m : Store) (k : List Nat) : Store :=
  m.filter (fun p => ¬(p.1 = k))

/-- Remove every key in the inclusive range `lo ≤ key ≤ hi`
(`omap.Map.DeleteRange`). -/
def DeleteRange (m : Store) (lo hi : List Nat) : Store :=
  m.filter (fun p => ¬(bleLex lo p.1 ∧ bleLex p.1 hi))

/-- All pairs with `lo ≤ key ≤ hi`, in key order (`omap.Map.Scan`). -/
def Scan (m : Store) (lo hi : List Nat) : Store :=
  m.filter (fun p => bleLex lo p.1 ∧ bleLex p.1 hi)

end omap

/-- Errors surfaced by the service: a missing/empty required field, or a
missing record (`fs.ErrNotExist`).  The two are distinct values. -/
inductive serviceError where
  | invalidArgument
  | notFound
deriving DecidableEq, Repr

/-- Parameter of Save (`SaveRequest`); `Part = none` models a nil payload
pointer, `Version = 0` models the unset optional field. -/
structure SaveRequest where
  AppName : GoString
  UserID : GoString
  SessionID : GoString
  FileName : GoString
  Version : Int
  Part : Option Part
deriving DecidableEq, Repr

/-- Return type of Save (`SaveResponse`). -/
structure SaveResponse where
  Version : Int
deriving DecidableEq, Repr

/-- Parameter of Load (`LoadRequest`). -/
structure LoadRequest where
  AppName : GoString
  UserID : GoString
  SessionID : GoString
  FileName : GoString
  Version : Int
deriving DecidableEq, Repr

/-- Return type of Load (`LoadResponse`). -/
structure LoadResponse where
  Part : Part
deriving DecidableEq, Repr

/-- Parameter of Delete (`DeleteRequest`). -/
structure DeleteRequest where
  AppName : GoString
  UserID : GoString
  SessionID : GoString
  FileName : GoString
  Version : Int
deriving DecidableEq, Repr

/-- Parameter of List (`ListRequest`). -/
structure ListRequest where
  AppName : GoString
  UserID : GoString
  SessionID : GoString
deriving DecidableEq, Repr

/-- Return type of List (`ListResponse`). -/
structure ListResponse where
  FileNames : List GoString
deriving DecidableEq, Repr

/-- Parameter of Versions (`VersionsRequest`). -/
structure VersionsRequest where
  AppName : GoString
  UserID : GoString
  SessionID : GoString
  FileName : GoString
deriving DecidableEq, Repr

/-- Return type of Versions (`VersionsResponse`). -/
structure VersionsResponse where
  Versions : List Int
deriving DecidableEq, Repr

namespace inMemoryService

/-- The fresh empty service state (`Mem()`). -/
def Mem : Store := []

/-- Decoding scan over a key range (`inMemoryService.scan`): pairs whose
key fails to decode are skipped. -/
def scan (m : Store) (lo hi : List Nat) : List (artifactKey × Part) :=
  (omap.Scan m lo hi).filterMap fun p =>
    match artifactKey.Decode p.1 with
    | some k => some (k, p.2)
    | none => none

/-- Latest-version lookup (`inMemoryService.find`): first hit of the scan
from version `math.MaxInt64` down to version 0. -/
def find (m : Store) (appName userID sessionID fileName : GoString) :
    Option (Int × Part) :=
  let lo := artifactKey.Encode ⟨appName, userID, sessionID, fileName, maxInt64⟩
  let hi := artifactKey.Encode ⟨appName, userID, sessionID, fileName, 0⟩
  match scan m lo hi with
  | [] => none
  | (k, v) :: _ => some (k.Version, v)

/-- Exact-version point lookup (`inMemoryService.get`). -/
def get (m : Store) (appName userID sessionID fileName : GoString)
    (version : Int) : Option Part :=
  omap.Get m (artifactKey.Encode ⟨appName, userID, sessionID, fileName, version⟩)

/-- Insert or overwrite one record (`inMemoryService.set`). -/
def set (m : Store) (appName userID sessionID fileName : GoString)
    (version : Int) (artifact : Part) : Store :=
  omap.Set m (artifactKey.Encode ⟨appName, userID, sessionID, fileName, version⟩)
    artifact

/-- Remove one record (`inMemoryService.delete`). -/
def delete (m : Store) (appName userID sessionID fileName : GoString)
    (version : Int) : Store :=
  omap.Delete m (artifactKey.Encode ⟨appName, userID, sessionID, fileName, version⟩)

/-- Save (`inMemoryService.Save`): validate, compute the successor of the
current latest version (1 if none), insert.  The request's explicit
`Version` field is never consulted. -/
def Save (m : Store) (req : SaveRequest) : Store × Except serviceError SaveResponse :=
  match req.Part with
  | none => (m, .error .invalidArgument)
  | some artifact =>
    if req.AppName = [] ∨ req.UserID = [] ∨ req.SessionID = [] ∨ req.FileName = [] then
      (m, .error .invalidArgument)
    else
      let nextVersion : Int :=
        match find m req.AppName req.UserID req.SessionID req.FileName with
        | some (internalVer, _) => internalVer + 1
        | none => 1
      (set m req.AppName req.UserID req.SessionID req.FileName nextVersion artifact,
        .ok ⟨nextVersion⟩)

/-- Load (`inMemoryService.Load`): validate; point lookup when the
version is positive, otherwise latest via `find`. -/
def Load (m : Store) (req : LoadRequest) : Except serviceError LoadResponse :=
  if req.AppName = [] ∨ req.UserID = [] ∨ req.SessionID = [] ∨ req.FileName = [] then
    .error .invalidArgument
  else if req.Version > 0 then
    match get m req.AppName req.UserID req.SessionID req.FileName req.Version with
    | some artifact => .ok ⟨artifact⟩
    | none => .error .notFound
  else
    match find m req.AppName req.UserID req.SessionID req.FileName with
    | some (_, artifact) => .ok ⟨artifact⟩
    | none => .error .notFound

/-- Delete (`inMemoryService.Delete`): validate; point delete when the
version is nonzero, otherwise range-delete the whole exact-file range. -/
def Delete (m : Store) (req : DeleteRequest) : Store × Except serviceError Unit :=
  if req.AppName = [] ∨ req.UserID = [] ∨ req.SessionID = [] ∨ req.FileName = [] then
    (m, .error .invalidArgument)
  else if req.Version ≠ 0 then
    (delete m req.AppName req.UserID req.SessionID req.FileName req.Version, .ok ())
  else
    let lo := artifactKey.Encode ⟨req.AppName, req.UserID, req.SessionID, req.FileName, maxInt64⟩
    let hi := artifactKey.Encode ⟨req.AppName, req.UserID, req.SessionID, req.FileName, 0⟩
    (omap.DeleteRange m lo hi, .ok ())

/-- List (`inMemoryService.List`): validate; scan the session range and
collect the distinct file names (the Go set `map[string]bool` is
determinised as first-occurrence order). -/
def ListFiles (m : Store) (req : ListRequest) : Except serviceError ListResponse :=
  if req.AppName = [] ∨ req.UserID = [] ∨ req.SessionID = [] then
    .error .invalidArgument
  else
    let lo := artifactKey.Encode ⟨req.AppName, req.UserID, req.SessionID, [], 0⟩
    let hi := artifactKey.Encode ⟨req.AppName, req.UserID, req.SessionID ++ [0], [], 0⟩
    let files := (scan m lo hi).foldl
      (fun acc kv =>
        if kv.1.SessionID ≠ req.SessionID then acc
        else if kv.1.FileName ∈ acc then acc else acc ++ [kv.1.FileName])
      []
    .ok ⟨files⟩

/-- Versions (`inMemoryService.Versions`): validate; scan the exact-file
range, collect the version numbers, not-found when empty. -/
def Versions (m : Store) (req : VersionsRequest) : Except serviceError VersionsResponse :=
  if req.AppName = [] ∨ req.UserID = [] ∨ req.SessionID = [] ∨ req.FileName = [] then
    .error .invalidArgument
  else
    let lo := artifactKey.Encode ⟨req.AppName, req.UserID, req.SessionID, req.FileName, maxInt64⟩
    let hi := artifactKey.Encode ⟨req.AppName, req.UserID, req.SessionID, req.FileName, 0⟩
    let versions := (scan m lo hi).map (fun kv => kv.1.Version)
    if versions = [] then .error .notFound else .ok ⟨versions⟩

end inMemoryService

/-!
Well-formedness of reachable store states: strictly sorted keys, every
key the canonical encoding of a valid artifact key (non-empty string
fields, version at least 1 and within the `int64` range).
-/

/-- Invariant on stored artifact keys: all four string fields non-empty
and the version at least 1 (and within `int64`). -/
def ValidKey (k : artifactKey) : Prop :=
  k.AppName ≠ [] ∧ k.UserID ≠ [] ∧ k.SessionID ≠ [] ∧ k.FileName ≠ [] ∧
    1 ≤ k.Version ∧ k.Version ≤ maxInt64

instance (k : artifactKey) : Decidable (ValidKey k) := by
  unfold ValidKey
  infer_instance

/-- Well-formedness of one stored map key: it decodes to a valid artifact
key of which it is the canonical encoding. -/
def keyWF (l : List Nat) : Prop :=
  ∃ k, artifactKey.Decode l = some k ∧ ValidKey k ∧ l = k.Encode

instance (l : List Nat) : Decidable (keyWF l) :=
  match h : artifactKey.Decode l with
  | some k =>
    if hv : ValidKey k ∧ l = k.Encode then
      isTrue ⟨k, h, hv.1, hv.2⟩
    else
      isFalse (fun hex => by
        obtain ⟨k2, h2, hv2, he2⟩ := hex
        rw [h] at h2
        cases h2
        exact hv ⟨hv2, he2⟩)
  | none =>
    isFalse (fun hex => by
      obtain ⟨k2, h2, _, _⟩ := hex
      rw [h] at h2
      cases h2)

/-- Well-formedness of a store state: keys strictly sorted, every key a
canonical encoding of a valid artifact key. -/
def WF (m : Store) : Prop :=
  List.Pairwise (fun p q => lexCmp p.1 q.1 = .lt) m ∧ ∀ p ∈ m, keyWF p.1

instance (m : Store) : Decidable (WF m) :=
  inferInstanceAs
    (Decidable (List.Pairwise (fun p q : List Nat × Part => lexCmp p.1 q.1 = .lt) m ∧
      ∀ p ∈ m, keyWF p.1))

/-!
Ordered-map lemmas.
-/

/-- Shorthand for the strict key order on stored pairs. -/
def pairLt (p q : List Nat × Part) : Prop := lexCmp p.1 q.1 = .lt

/-!
Observation functions and the scan equations.
-/

/-- Projection of one stored pair onto a given file: its version and
payload when the key decodes to that file, else nothing. -/
def fileEntry (a u s f : GoString) (x : List Nat × Part) : Option (Int × Part) :=
  match artifactKey.Decode x.1 with
  | some k =>
    if k.AppName = a ∧ k.UserID = u ∧ k.SessionID = s ∧ k.FileName = f then
      some (k.Version, x.2)
    else none
  | none => none

/-- Observation: the version-payload pairs of all stored records of one
file, in store (scan) order. -/
def fileRecords (m : Store) (a u s f : GoString) : List (Int × Part) :=
  m.filterMap (fileEntry a u s f)

/-- Observation: all stored records of one session, in store order. -/
def sessionRecords (m : Store) (a u s : GoString) : List (artifactKey × Part) :=
  m.filterMap fun p =>
    match artifactKey.Decode p.1 with
    | some k =>
      if k.AppName = a ∧ k.UserID = u ∧ k.SessionID = s then some (k, p.2)
      else none
    | none => none

/-- Version numbers N, N-1, ..., 1: the versions present after N
auto-versioned saves of one file. -/
def descVersions (n : Nat) : List Int :=
  (List.range n).reverse.map (fun i => (i : Int) + 1)

/-- Repeated Save of the same file with the version field unset,
returning the final store and each call's result in order. -/
def saveAll (a u s f : GoString) : Store → List Part →
    Store × List (Except serviceError SaveResponse)
  | m, [] => (m, [])
  | m, p :: ps =>
    let r := inMemoryService.Save m ⟨a, u, s, f, 0, some p⟩
    let rest := saveAll a u s f r.1 ps
    (rest.1, r.2 :: rest.2)

/-!
Concrete witness data: a well-formed store holding versions 2 and 1 of
the file (app 97, user 117, session 115, file 102).
-/

/-- Concrete two-record store used to instantiate the theorems. -/
def wStore : Store :=
  [(artifactKey.Encode ⟨[97], [117], [115], [102], 2⟩, ⟨12⟩),
    (artifactKey.Encode ⟨[97], [117], [115], [102], 1⟩, ⟨11⟩)]

theorem natCmp_self (a : Nat) : natCmp a a = .eq := by
  simp [natCmp]

theorem natCmp_eq_eq {a b : Nat} : natCmp a b = .eq ↔ a = b := by
  unfold natCmp
  split
  · rename_i h
    constructor
    · intro hc; cases hc
    · intro hc; omega
  · split
    · rename_i h1 h2
      constructor
      · intro hc; cases hc
      · intro hc; omega
    · rename_i h1 h2
      constructor
      · intro _; omega
      · intro _; rfl

theorem natCmp_eq_lt {a b : Nat} : natCmp a b = .lt ↔ a < b := by
  unfold natCmp
  split
  · rename_i h
    constructor
    · intro _; exact h
    · intro _; rfl
  · split
    · rename_i h1 h2
      constructor
      · intro hc; cases hc
      · intro hc; omega
    · rename_i h1 h2
      constructor
      · intro hc; cases hc
      · intro hc; omega

theorem natCmp_eq_gt {a b : Nat} : natCmp a b = .gt ↔ b < a := by
  unfold natCmp
  split
  · rename_i h
    constructor
    · intro hc; cases hc
    · intro hc; omega
  · split
    · rename_i h1 h2
      constructor
      · intro _; exact h2
      · intro _; rfl
    · rename_i h1 h2
      constructor
      · intro hc; cases hc
      · intro hc; omega

theorem lexCmp_self (l : List Nat) : lexCmp l l = .eq := by
  induction l with
  | nil => rfl
  | cons a as ih => simp [lexCmp, natCmp_self, ih]

theorem lexCmp_eq_eq : ∀ {x y : List Nat}, lexCmp x y = .eq ↔ x = y
  | [], [] => by simp [lexCmp]
  | [], _ :: _ => by simp [lexCmp]
  | _ :: _, [] => by simp [lexCmp]
  | a :: as, b :: bs => by
    rcases h : natCmp a b with _ | _ | _
    · have hne : a ≠ b := by
        have := natCmp_eq_lt.mp h; omega
      simp [lexCmp, h, hne]
    · have hab : a = b := natCmp_eq_eq.mp h
      subst hab
      simp [lexCmp, h]
      exact lexCmp_eq_eq (x := as) (y := bs)
    · have hne : a ≠ b := by
        have := natCmp_eq_gt.mp h; omega
      simp [lexCmp, h, hne]

theorem lexCmp_swap : ∀ {x y : List Nat},
    lexCmp x y = .gt ↔ lexCmp y x = .lt
  | [], [] => by simp [lexCmp]
  | [], _ :: _ => by simp [lexCmp]
  | _ :: _, [] => by simp [lexCmp]
  | a :: as, b :: bs => by
    rcases h : natCmp a b with _ | _ | _
    · have hba : natCmp b a = .gt := natCmp_eq_gt.mpr (natCmp_eq_lt.mp h)
      simp [lexCmp, h, hba]
    · have hab : a = b := natCmp_eq_eq.mp h
      subst hab
      simp [lexCmp, h]
      exact lexCmp_swap (x := as) (y := bs)
    · have hba : natCmp b a = .lt := natCmp_eq_lt.mpr (natCmp_eq_gt.mp h)
      simp [lexCmp, h, hba]

theorem lexCmp_append_left : ∀ (x y z : List Nat),
    lexCmp (x ++ y) (x ++ z) = lexCmp y z := by
  intro x
  induction x with
  | nil => intro y z; rfl
  | cons a as ih => intro y z; simp [lexCmp, natCmp_self, ih]

theorem lexCmp_trans_lt {x : List Nat} : ∀ {y z : List Nat},
    lexCmp x y = .lt → lexCmp y z = .lt → lexCmp x z = .lt := by
  induction x with
  | nil =>
    intro y z h1 h2
    cases y with
    | nil => cases h1
    | cons b bs =>
      cases z with
      | nil => cases h2
      | cons c cs => simp [lexCmp]
  | cons a as ih =>
    intro y z h1 h2
    cases y with
    | nil => cases h1
    | cons b bs =>
      cases z with
      | nil => cases h2
      | cons c cs =>
        rcases hab : natCmp a b with _ | _ | _
        · rcases hbc : natCmp b c with _ | _ | _
          · have hac : natCmp a c = .lt :=
              natCmp_eq_lt.mpr (lt_trans (natCmp_eq_lt.mp hab) (natCmp_eq_lt.mp hbc))
            simp [lexCmp, hac]
          · have hb : b = c := natCmp_eq_eq.mp hbc
            subst hb
            simp [lexCmp, hab]
          · simp [lexCmp, hbc] at h2
        · have hb : a = b := natCmp_eq_eq.mp hab
          subst hb
          rcases hbc : natCmp a c with _ | _ | _
          · simp [lexCmp, hbc]
          · simp [lexCmp, hab] at h1
            simp [lexCmp, hbc] at h2
            simp [lexCmp, hbc]
            exact ih h1 h2
          · simp [lexCmp, hbc] at h2
        · simp [lexCmp, hab] at h1

theorem lexCmp_trichotomy (x y : List Nat) :
    lexCmp x y = .lt ∨ x = y ∨ lexCmp y x = .lt := by
  rcases h : lexCmp x y with _ | _ | _
  · exact Or.inl rfl
  · exact Or.inr (Or.inl (lexCmp_eq_eq.mp h))
  · exact Or.inr (Or.inr (lexCmp_swap.mp h))

theorem bleLex_iff {x y : List Nat} :
    bleLex x y = true ↔ lexCmp x y = .lt ∨ x = y := by
  unfold bleLex
  rcases h : lexCmp x y with _ | _ | _
  · simp
  · simp
    exact lexCmp_eq_eq.mp h
  · simp
    intro hc
    subst hc; rw [lexCmp_self] at h; cases h

theorem bleLex_refl (x : List Nat) : bleLex x x = true := by
  simp [bleLex, lexCmp_self]

theorem bleLex_of_lt {x y : List Nat} (h : lexCmp x y = .lt) :
    bleLex x y = true := by
  simp [bleLex, h]

theorem decodeString_encodeString (s : GoString) (r : List Nat) :
    decodeString (encodeString s ++ r) = some (s, r) := by
  induction s with
  | nil => simp [encodeString, decodeString]
  | cons b bs ih =>
    cases b with
    | zero => simp [encodeString, escByte, decodeString, ih]
    | succ n => simp [encodeString, escByte, decodeString, ih]

theorem decodeBE_beBytes (w : Nat) : ∀ (n : Nat), n < 256 ^ w →
    ∀ (r : List Nat), decodeBE w (beBytes w n ++ r) = some (n, r) := by
  induction w with
  | zero =>
    intro n hn r
    interval_cases n
    simp [beBytes, decodeBE]
  | succ w ih =>
    intro n hn r
    have hm : n % 256 ^ w < 256 ^ w := Nat.mod_lt _ (Nat.pos_pow_of_pos w (by omega))
    have hd : n / 256 ^ w < 256 := by
      have : n < 256 ^ w * 256 := by
        have := pow_succ 256 w
        omega
      exact Nat.div_lt_of_lt_mul (by omega)
    simp [beBytes, decodeBE, Nat.mod_eq_of_lt hd, ih (n % 256 ^ w) hm]
    exact Nat.div_add_mod' n (256 ^ w)

theorem beBytes_length (w : Nat) : ∀ n, (beBytes w n).length = w := by
  induction w with
  | zero => intro n; simp [beBytes]
  | succ w ih => intro n; simp [beBytes, ih]

theorem revNat_lt (v : Int) : revNat v < 2 ^ 64 := by
  unfold revNat
  have h0 : (0 : Int) < 2 ^ 64 := by norm_num
  have := Int.emod_lt_of_pos (maxInt64 - v) h0
  have := Int.emod_nonneg (maxInt64 - v) (by norm_num : (2 : Int) ^ 64 ≠ 0)
  omega

theorem revNat_eq_of_range {v : Int} (h : int64Range v) :
    (revNat v : Int) = maxInt64 - v := by
  unfold revNat
  rcases h with ⟨h1, h2⟩
  have hlo : (0 : Int) ≤ maxInt64 - v := by unfold maxInt64; omega
  have hhi : maxInt64 - v < 2 ^ 64 := by unfold maxInt64; omega
  rw [Int.emod_eq_of_lt hlo hhi]
  omega

theorem decodeRevVal_revNat {v : Int} (h : int64Range v) :
    decodeRevVal (revNat v) = v := by
  unfold decodeRevVal
  have := revNat_eq_of_range h
  omega

/-- Round trip for the version encoding. -/
theorem decodeBE_encodeRev (v : Int) (r : List Nat) :
    decodeBE 8 (encodeRev v ++ r) = some (revNat v, r) := by
  unfold encodeRev
  exact decodeBE_beBytes 8 (revNat v) (by have := revNat_lt v; norm_num at this ⊢; omega) r

theorem decodeBE_encodeRev_nil (v : Int) :
    decodeBE 8 (encodeRev v) = some (revNat v, []) := by
  have := decodeBE_encodeRev v []
  simpa using this

/-- Round trip of the full key codec. -/
theorem Decode_Encode {k : artifactKey} (h : int64Range k.Version) :
    artifactKey.Decode k.Encode = some k := by
  unfold artifactKey.Encode artifactKey.Decode
  simp [List.append_assoc, decodeString_encodeString, decodeBE_encodeRev_nil,
    decodeRevVal_revNat h]

/-!
Order preservation of the codec.
-/

theorem beBytes_lt (w : Nat) : ∀ (n1 n2 : Nat), n1 < n2 → n2 < 256 ^ w →
    ∀ (r1 r2 : List Nat),
    lexCmp (beBytes w n1 ++ r1) (beBytes w n2 ++ r2) = .lt := by
  induction w with
  | zero =>
    intro n1 n2 h1 h2
    simp at h2
    omega
  | succ w ih =>
    intro n1 n2 h1 h2 r1 r2
    have hd2 : n2 / 256 ^ w < 256 := by
      have : n2 < 256 ^ w * 256 := by
        have := pow_succ 256 w
        omega
      exact Nat.div_lt_of_lt_mul (by omega)
    have hdle : n1 / 256 ^ w ≤ n2 / 256 ^ w :=
      Nat.div_le_div_right (le_of_lt h1)
    have hd1 : n1 / 256 ^ w < 256 := lt_of_le_of_lt hdle hd2
    rcases Nat.lt_or_ge (n1 / 256 ^ w) (n2 / 256 ^ w) with hlt | hge
    · have hcmp : natCmp (n1 / 256 ^ w % 256) (n2 / 256 ^ w % 256) = .lt := by
        rw [Nat.mod_eq_of_lt hd1, Nat.mod_eq_of_lt hd2]
        exact natCmp_eq_lt.mpr hlt
      simp [beBytes, lexCmp, hcmp]
    · have hd : n1 / 256 ^ w = n2 / 256 ^ w := le_antisymm hdle hge
      have e1 := Nat.div_add_mod' n1 (256 ^ w)
      have e2 := Nat.div_add_mod' n2 (256 ^ w)
      rw [hd] at e1
      have hmlt : n1 % 256 ^ w < n2 % 256 ^ w := by omega
      have hm2 : n2 % 256 ^ w < 256 ^ w :=
        Nat.mod_lt _ (Nat.pos_pow_of_pos w (by omega))
      have hrec := ih (n1 % 256 ^ w) (n2 % 256 ^ w) hmlt hm2 r1 r2
      simp [beBytes, lexCmp, hd, natCmp_self, hrec]

/-- Reverse order: a larger version encodes to a lexicographically smaller
byte string. -/
theorem encodeRev_lt {v1 v2 : Int} (h1 : int64Range v1) (h2 : int64Range v2)
    (hlt : v2 < v1) (r1 r2 : List Nat) :
    lexCmp (encodeRev v1 ++ r1) (encodeRev v2 ++ r2) = .lt := by
  have e1 := revNat_eq_of_range h1
  have e2 := revNat_eq_of_range h2
  have hn : revNat v1 < revNat v2 := by omega
  have hb : revNat v2 < 256 ^ 8 := by
    have := revNat_lt v2
    norm_num at this ⊢
    omega
  exact beBytes_lt 8 (revNat v1) (revNat v2) hn hb r1 r2

theorem encodeString_lt {s t : GoString} : ∀ {r1 r2 : List Nat},
    lexCmp s t = .lt →
    lexCmp (encodeString s ++ r1) (encodeString t ++ r2) = .lt := by
  induction s generalizing t with
  | nil =>
    intro r1 r2 h
    cases t with
    | nil => cases h
    | cons b bs =>
      cases b with
      | zero =>
        have : natCmp 1 255 = .lt := natCmp_eq_lt.mpr (by omega)
        simp [encodeString, escByte, lexCmp, natCmp_self, this]
      | succ m =>
        have : natCmp 0 (m + 1) = .lt := natCmp_eq_lt.mpr (by omega)
        simp [encodeString, escByte, lexCmp, this]
  | cons a as ih =>
    intro r1 r2 h
    cases t with
    | nil => cases h
    | cons b bs =>
      rcases hab : natCmp a b with _ | _ | _
      · have hab2 : a < b := natCmp_eq_lt.mp hab
        cases a with
        | zero =>
          rcases b with _ | m
          · omega
          · have : natCmp 0 (m + 1) = .lt := natCmp_eq_lt.mpr (by omega)
            simp [encodeString, escByte, lexCmp, this]
        | succ n =>
          rcases b with _ | m
          · omega
          · have : natCmp (n + 1) (m + 1) = .lt := natCmp_eq_lt.mpr (by omega)
            simp [encodeString, escByte, lexCmp, this]
      · have hab2 : a = b := natCmp_eq_eq.mp hab
        subst hab2
        simp [lexCmp, hab] at h
        calc lexCmp (encodeString (a :: as) ++ r1) (encodeString (a :: bs) ++ r2)
            = lexCmp (escByte a ++ (encodeString as ++ r1))
                (escByte a ++ (encodeString bs ++ r2)) := by
              simp [encodeString, List.append_assoc]
          _ = .lt := by rw [lexCmp_append_left]; exact ih h
      · simp [lexCmp, hab] at h

theorem Encode_lt_of_keyLt {k1 k2 : artifactKey}
    (h1 : int64Range k1.Version) (h2 : int64Range k2.Version)
    (h : keyLt k1 k2) :
    lexCmp k1.Encode k2.Encode = .lt := by
  obtain ⟨a1, u1, s1, f1, v1⟩ := k1
  obtain ⟨a2, u2, s2, f2, v2⟩ := k2
  simp [keyLt] at h
  simp only [artifactKey.Encode, List.append_assoc]
  rcases h with h | ⟨ha, h⟩
  · exact encodeString_lt h
  · subst ha
    rw [lexCmp_append_left]
    rcases h with h | ⟨hu, h⟩
    · exact encodeString_lt h
    · subst hu
      rw [lexCmp_append_left]
      rcases h with h | ⟨hs, h⟩
      · exact encodeString_lt h
      · subst hs
        rw [lexCmp_append_left]
        rcases h with h | ⟨hf, h⟩
        · exact encodeString_lt h
        · subst hf
          rw [lexCmp_append_left]
          have := encodeRev_lt h1 h2 h [] []
          simpa using this

theorem keyLt_trichotomy (k1 k2 : artifactKey) :
    keyLt k1 k2 ∨ k1 = k2 ∨ keyLt k2 k1 := by
  obtain ⟨a1, u1, s1, f1, v1⟩ := k1
  obtain ⟨a2, u2, s2, f2, v2⟩ := k2
  simp [keyLt]
  rcases lexCmp_trichotomy a1 a2 with h | h | h
  · tauto
  · subst h
    rcases lexCmp_trichotomy u1 u2 with h | h | h
    · tauto
    · subst h
      rcases lexCmp_trichotomy s1 s2 with h | h | h
      · tauto
      · subst h
        rcases lexCmp_trichotomy f1 f2 with h | h | h
        · tauto
        · subst h
          rcases lt_trichotomy v1 v2 with h | h | h
          · tauto
          · tauto
          · tauto
        · tauto
      · tauto
    · tauto
  · tauto

/-- Encoding is injective on keys with in-range versions. -/
theorem Encode_injective {k1 k2 : artifactKey}
    (h1 : int64Range k1.Version) (h2 : int64Range k2.Version)
    (h : k1.Encode = k2.Encode) : k1 = k2 := by
  have e1 := Decode_Encode h1
  have e2 := Decode_Encode h2
  rw [h] at e1
  rw [e1] at e2
  exact Option.some_injective _ e2

/-- Full characterization of the encoded-key order for in-range versions. -/
theorem Encode_lt_iff {k1 k2 : artifactKey}
    (h1 : int64Range k1.Version) (h2 : int64Range k2.Version) :
    lexCmp k1.Encode k2.Encode = .lt ↔ keyLt k1 k2 := by
  constructor
  · intro h
    rcases keyLt_trichotomy k1 k2 with hk | hk | hk
    · exact hk
    · subst hk
      rw [lexCmp_self] at h
      cases h
    · have := Encode_lt_of_keyLt h2 h1 hk
      rw [← lexCmp_swap] at this
      rw [this] at h
      cases h
  · exact Encode_lt_of_keyLt h1 h2

/-!
Further order facts and the range-boundary characterizations.
-/

theorem lexCmp_lt_ne {x y : List Nat} (h : lexCmp x y = .lt) : x ≠ y := by
  intro he
  subst he
  rw [lexCmp_self] at h
  cases h

theorem bleLex_lt_absurd {x y : List Nat} (h1 : bleLex x y = true)
    (h2 : lexCmp y x = .lt) : False := by
  rcases bleLex_iff.mp h1 with h | h
  · have := lexCmp_trans_lt h h2
    rw [lexCmp_self] at this
    cases this
  · subst h
    exact lexCmp_lt_ne h2 rfl

theorem bleLex_ne_gt {x y : List Nat} :
    bleLex x y = true ↔ lexCmp x y ≠ .gt := by
  unfold bleLex
  rcases lexCmp x y with _ | _ | _ <;> simp

theorem lexCmp_append_right_lt {s t : GoString} (h : t ≠ []) :
    lexCmp s (s ++ t) = .lt := by
  have hc := lexCmp_append_left s [] t
  rw [List.append_nil] at hc
  rw [hc]
  cases t with
  | nil => cases h rfl
  | cons b bs => rfl

theorem lexCmp_append_zero_ne_gt {s t : GoString} (h : lexCmp s t = .lt) :
    lexCmp (s ++ [0]) t ≠ .gt := by
  induction s generalizing t with
  | nil =>
    cases t with
    | nil => cases h
    | cons b bs =>
      cases b with
      | zero =>
        cases bs with
        | nil => simp [lexCmp, natCmp_self]
        | cons c cs => simp [lexCmp, natCmp_self]
      | succ n =>
        have hn : natCmp 0 (n + 1) = .lt := natCmp_eq_lt.mpr (by omega)
        simp [lexCmp, hn]
  | cons a as ih =>
    cases t with
    | nil => cases h
    | cons b bs =>
      rcases hab : natCmp a b with _ | _ | _
      · simp [lexCmp, hab]
      · have he := natCmp_eq_eq.mp hab
        subst he
        simp [lexCmp, hab] at h
        simpa [lexCmp, natCmp_self] using ih h
      · simp [lexCmp, hab] at h

theorem validKey_range {k : artifactKey} (hk : ValidKey k) :
    int64Range k.Version := by
  rcases hk with ⟨-, -, -, -, h1, h2⟩
  unfold maxInt64 at h2
  unfold int64Range
  omega

theorem maxInt64_range : int64Range maxInt64 := by
  unfold int64Range maxInt64
  omega

theorem zero_range : int64Range 0 := by
  unfold int64Range
  omega

/-- Transfer of a strict key order caused by a string-field difference to
any other version value. -/
theorem keyLt_version_any {a u s f : GoString} {v v2 : Int} {k : artifactKey}
    (h : keyLt ⟨a, u, s, f, v⟩ k)
    (hne : ¬(k.AppName = a ∧ k.UserID = u ∧ k.SessionID = s ∧ k.FileName = f)) :
    keyLt ⟨a, u, s, f, v2⟩ k := by
  unfold keyLt at h ⊢
  simp only at h ⊢
  rcases h with h | ⟨ha, h⟩
  · exact Or.inl h
  · refine Or.inr ⟨ha, ?_⟩
    rcases h with h | ⟨hu, h⟩
    · exact Or.inl h
    · refine Or.inr ⟨hu, ?_⟩
      rcases h with h | ⟨hs, h⟩
      · exact Or.inl h
      · refine Or.inr ⟨hs, ?_⟩
        rcases h with h | ⟨hf, _⟩
        · exact Or.inl h
        · exact absurd ⟨ha.symm, hu.symm, hs.symm, hf.symm⟩ hne

/-- Characterization of the exact-file scan range: a valid stored key lies
in the inclusive range from version `maxInt64` to version 0 exactly when
its four string fields match. -/
theorem inFileRange_iff {k : artifactKey} (hk : ValidKey k) (a u s f : GoString) :
    (bleLex (artifactKey.Encode ⟨a, u, s, f, maxInt64⟩) k.Encode = true ∧
      bleLex k.Encode (artifactKey.Encode ⟨a, u, s, f, 0⟩) = true) ↔
    (k.AppName = a ∧ k.UserID = u ∧ k.SessionID = s ∧ k.FileName = f) := by
  have hkr : int64Range k.Version := validKey_range hk
  constructor
  · intro ⟨h1, h2⟩
    by_contra hne
    rcases keyLt_trichotomy k ⟨a, u, s, f, maxInt64⟩ with ht | ht | ht
    · exact bleLex_lt_absurd h1 (Encode_lt_of_keyLt hkr maxInt64_range ht)
    · rw [ht] at hne
      exact hne ⟨rfl, rfl, rfl, rfl⟩
    · have ht2 : keyLt ⟨a, u, s, f, (0 : Int)⟩ k := keyLt_version_any ht hne
      exact bleLex_lt_absurd h2 (Encode_lt_of_keyLt zero_range hkr ht2)
  · intro ⟨ha, hu, hs, hf⟩
    rcases hk with ⟨-, -, -, -, hv1, hv2⟩
    constructor
    · rcases eq_or_lt_of_le hv2 with he | hlt
      · have hkeq : k = ⟨a, u, s, f, maxInt64⟩ := by
          obtain ⟨ka, ku, ks, kf, kv⟩ := k
          simp_all
        rw [hkeq]
        exact bleLex_refl _
      · apply bleLex_of_lt
        apply Encode_lt_of_keyLt maxInt64_range hkr
        unfold keyLt
        simp only
        exact Or.inr ⟨ha.symm, Or.inr ⟨hu.symm, Or.inr ⟨hs.symm,
          Or.inr ⟨hf.symm, hlt⟩⟩⟩⟩
    · apply bleLex_of_lt
      apply Encode_lt_of_keyLt hkr zero_range
      unfold keyLt
      simp only
      exact Or.inr ⟨ha, Or.inr ⟨hu, Or.inr ⟨hs, Or.inr ⟨hf, by omega⟩⟩⟩⟩

/-- Characterization of the whole-session scan range used by List: a valid
stored key lies in the range exactly when its app, user and session match. -/
theorem inSessionRange_iff {k : artifactKey} (hk : ValidKey k) (a u s : GoString) :
    (bleLex (artifactKey.Encode ⟨a, u, s, [], 0⟩) k.Encode = true ∧
      bleLex k.Encode (artifactKey.Encode ⟨a, u, s ++ [0], [], 0⟩) = true) ↔
    (k.AppName = a ∧ k.UserID = u ∧ k.SessionID = s) := by
  have hkr : int64Range k.Version := validKey_range hk
  obtain ⟨hka, hku, hks, hkf, hkv1, hkv2⟩ := hk
  have hfile : lexCmp [] k.FileName = .lt := by
    cases hf : k.FileName with
    | nil => exact absurd hf hkf
    | cons b bs => rfl
  constructor
  · intro ⟨h1, h2⟩
    by_contra hne
    rcases keyLt_trichotomy k ⟨a, u, s, [], 0⟩ with ht | ht | ht
    · exact bleLex_lt_absurd h1 (Encode_lt_of_keyLt hkr zero_range ht)
    · rw [ht] at hkf
      exact hkf rfl
    · unfold keyLt at ht
      simp only at ht
      have hK2 : keyLt ⟨a, u, s ++ [0], [], 0⟩ k := by
        unfold keyLt
        simp only
        rcases ht with h | ⟨ha, h⟩
        · exact Or.inl h
        · refine Or.inr ⟨ha, ?_⟩
          rcases h with h | ⟨hu, h⟩
          · exact Or.inl h
          · refine Or.inr ⟨hu, ?_⟩
            rcases h with h | ⟨hs, h⟩
            · rcases hc : lexCmp (s ++ [0]) k.SessionID with _ | _ | _
              · exact Or.inl rfl
              · exact Or.inr ⟨lexCmp_eq_eq.mp hc, Or.inl hfile⟩
              · exact absurd hc (lexCmp_append_zero_ne_gt h)
            · exact absurd ⟨ha.symm, hu.symm, hs.symm⟩ hne
      exact bleLex_lt_absurd h2 (Encode_lt_of_keyLt zero_range hkr hK2)
  · intro ⟨ha, hu, hs⟩
    constructor
    · apply bleLex_of_lt
      apply Encode_lt_of_keyLt zero_range hkr
      unfold keyLt
      simp only
      exact Or.inr ⟨ha.symm, Or.inr ⟨hu.symm, Or.inr ⟨hs.symm, Or.inl hfile⟩⟩⟩
    · apply bleLex_of_lt
      apply Encode_lt_of_keyLt hkr zero_range
      unfold keyLt
      simp only
      refine Or.inr ⟨ha, Or.inr ⟨hu, Or.inl ?_⟩⟩
      rw [hs]
      exact lexCmp_append_right_lt (t := [0]) (by simp)

theorem keyWF_encode {k : artifactKey} (hk : ValidKey k) : keyWF k.Encode :=
  ⟨k, Decode_Encode (validKey_range hk), hk, rfl⟩

theorem WF_key_unique {m : Store}
    (hm : List.Pairwise pairLt m)
    {k : List Nat} {p q : Part} (hp : (k, p) ∈ m) (hq : (k, q) ∈ m) : p = q := by
  induction m with
  | nil => cases hp
  | cons x m ih =>
    rcases List.pairwise_cons.mp hm with ⟨hx, hm2⟩
    rcases List.mem_cons.mp hp with hp1 | hp1 <;>
      rcases List.mem_cons.mp hq with hq1 | hq1
    · rw [← hp1] at hq1
      have := congrArg Prod.snd hq1
      simpa using this.symm
    · subst hp1
      have := hx _ hq1
      unfold pairLt at this
      simp at this
      exact absurd rfl (lexCmp_lt_ne this)
    · subst hq1
      have := hx _ hp1
      unfold pairLt at this
      simp at this
      exact absurd rfl (lexCmp_lt_ne this)
    · exact ih hm2 hp1 hq1

theorem Get_some_iff {m : Store} (hm : List.Pairwise pairLt m)
    {k : List Nat} {p : Part} :
    omap.Get m k = some p ↔ (k, p) ∈ m := by
  unfold omap.Get
  constructor
  · intro h
    rcases Option.map_eq_some'.mp h with ⟨x, hfind, hx2⟩
    have hpred := List.find?_some hfind
    have hmem := List.mem_of_find?_eq_some hfind
    simp at hpred
    have : x = (k, p) := by
      obtain ⟨x1, x2⟩ := x
      simp at hpred hx2
      simp [hpred, hx2]
    rw [this] at hmem
    exact hmem
  · intro h
    cases hfind : m.find? (fun q => q.1 = k) with
    | none =>
      have := List.find?_eq_none.mp hfind _ h
      simp at this
    | some x =>
      have hpred := List.find?_some hfind
      have hmem := List.mem_of_find?_eq_some hfind
      simp at hpred
      obtain ⟨x1, x2⟩ := x
      simp at hpred
      subst hpred
      have := WF_key_unique hm h hmem
      simp [this]

theorem Get_none_iff {m : Store} {k : List Nat} :
    omap.Get m k = none ↔ ∀ p, (k, p) ∉ m := by
  unfold omap.Get
  simp only [Option.map_eq_none', List.find?_eq_none]
  constructor
  · intro h p hp
    have := h _ hp
    simp at this
  · intro h q hq
    simp only [decide_eq_true_eq]
    intro hk
    obtain ⟨q1, q2⟩ := q
    simp at hk
    subst hk
    exact h q2 hq

theorem mem_Set_subset {m : Store} {k : List Nat} {v : Part} {x : List Nat × Part}
    (hx : x ∈ omap.Set m k v) : x = (k, v) ∨ x ∈ m := by
  induction m with
  | nil =>
    simp [omap.Set] at hx
    exact Or.inl hx
  | cons y m ih =>
    obtain ⟨y1, y2⟩ := y
    unfold omap.Set at hx
    rcases hc : lexCmp k y1 with _ | _ | _ <;> rw [hc] at hx
    · rcases List.mem_cons.mp hx with h | h
      · exact Or.inl h
      · exact Or.inr h
    · rcases List.mem_cons.mp hx with h | h
      · exact Or.inl h
      · exact Or.inr (List.mem_cons_of_mem _ h)
    · rcases List.mem_cons.mp hx with h | h
      · exact Or.inr (List.mem_cons.mpr (Or.inl h))
      · rcases ih h with h2 | h2
        · exact Or.inl h2
        · exact Or.inr (List.mem_cons_of_mem _ h2)

theorem Set_pairwise {m : Store} (hm : List.Pairwise pairLt m)
    (k : List Nat) (v : Part) :
    List.Pairwise pairLt (omap.Set m k v) := by
  induction m with
  | nil => simp [omap.Set, pairLt]
  | cons y m ih =>
    obtain ⟨y1, y2⟩ := y
    rcases List.pairwise_cons.mp hm with ⟨hy, hm2⟩
    unfold omap.Set
    rcases hc : lexCmp k y1 with _ | _ | _
    · refine List.pairwise_cons.mpr ⟨?_, hm⟩
      intro q hq
      rcases List.mem_cons.mp hq with h | h
      · subst h
        exact hc
      · have := hy _ h
        unfold pairLt at this ⊢
        exact lexCmp_trans_lt hc this
    · have he : k = y1 := lexCmp_eq_eq.mp hc
      subst he
      exact List.pairwise_cons.mpr ⟨fun q hq => hy _ hq, hm2⟩
    · refine List.pairwise_cons.mpr ⟨?_, ih hm2⟩
      intro q hq
      rcases mem_Set_subset hq with h | h
      · subst h
        unfold pairLt
        exact lexCmp_swap.mp hc
      · exact hy _ h

theorem mem_Set_iff {m : Store} (hm : List.Pairwise pairLt m)
    {k : List Nat} {v : Part} {x : List Nat × Part} :
    x ∈ omap.Set m k v ↔ (x = (k, v) ∨ (x ∈ m ∧ x.1 ≠ k)) := by
  induction m with
  | nil =>
    simp [omap.Set]
  | cons y m ih =>
    obtain ⟨y1, y2⟩ := y
    rcases List.pairwise_cons.mp hm with ⟨hy, hm2⟩
    unfold omap.Set
    rcases hc : lexCmp k y1 with _ | _ | _
    · constructor
      · intro hx
        rcases List.mem_cons.mp hx with h | h
        · exact Or.inl h
        · refine Or.inr ⟨h, ?_⟩
          intro hk
          rcases List.mem_cons.mp h with h2 | h2
          · rw [h2] at hk
            simp at hk
            rw [hk] at hc
            exact absurd rfl (lexCmp_lt_ne hc)
          · have := hy _ h2
            unfold pairLt at this
            rw [hk] at this
            exact bleLex_lt_absurd (bleLex_of_lt hc) this
      · intro hx
        rcases hx with h | ⟨h, -⟩
        · exact List.mem_cons.mpr (Or.inl h)
        · exact List.mem_cons_of_mem _ h
    · have he : k = y1 := lexCmp_eq_eq.mp hc
      subst he
      constructor
      · intro hx
        rcases List.mem_cons.mp hx with h | h
        · exact Or.inl h
        · refine Or.inr ⟨List.mem_cons_of_mem _ h, ?_⟩
          intro hk
          have := hy _ h
          unfold pairLt at this
          rw [hk] at this
          exact absurd rfl (lexCmp_lt_ne this)
      · intro hx
        rcases hx with h | ⟨h, hne⟩
        · exact List.mem_cons.mpr (Or.inl h)
        · rcases List.mem_cons.mp h with h2 | h2
          · rw [h2] at hne
            simp at hne
          · exact List.mem_cons_of_mem _ h2
    · constructor
      · intro hx
        rcases List.mem_cons.mp hx with h | h
        · refine Or.inr ⟨List.mem_cons.mpr (Or.inl h), ?_⟩
          rw [h]
          intro hk
          simp at hk
          rw [hk] at hc
          exact absurd rfl (lexCmp_lt_ne (lexCmp_swap.mp hc))
        · rcases (ih hm2).mp h with h2 | ⟨h2, h3⟩
          · exact Or.inl h2
          · exact Or.inr ⟨List.mem_cons_of_mem _ h2, h3⟩
      · intro hx
        rcases hx with h | ⟨h, hne⟩
        · exact List.mem_cons_of_mem _ ((ih hm2).mpr (Or.inl h))
        · rcases List.mem_cons.mp h with h2 | h2
          · exact List.mem_cons.mpr (Or.inl h2)
          · exact List.mem_cons_of_mem _ ((ih hm2).mpr (Or.inr ⟨h2, hne⟩))

theorem WF_filter {m : Store} (hm : WF m) (g : List Nat × Part → Bool) :
    WF (m.filter g) := by
  refine ⟨List.Pairwise.sublist (List.filter_sublist m) hm.1, ?_⟩
  intro p hp
  exact hm.2 p (List.mem_filter.mp hp).1

theorem WF_Set {m : Store} (hm : WF m) {k : artifactKey} (hk : ValidKey k)
    (v : Part) : WF (omap.Set m k.Encode v) := by
  refine ⟨Set_pairwise hm.1 _ _, ?_⟩
  intro p hp
  rcases mem_Set_subset hp with h | h
  · rw [h]
    exact keyWF_encode hk
  · exact hm.2 p h

theorem WF_Mem : WF inMemoryService.Mem := by
  constructor
  · simp [inMemoryService.Mem]
  · intro p hp
    simp [inMemoryService.Mem] at hp

theorem scan_filterMap (m : Store) (lo hi : List Nat) :
    inMemoryService.scan m lo hi =
      m.filterMap fun p =>
        if bleLex lo p.1 = true ∧ bleLex p.1 hi = true then
          match artifactKey.Decode p.1 with
          | some k => some (k, p.2)
          | none => none
        else none := by
  unfold inMemoryService.scan omap.Scan
  induction m with
  | nil => rfl
  | cons p m ih =>
    by_cases hc : bleLex lo p.1 = true ∧ bleLex p.1 hi = true
    · have hb : (decide (bleLex lo p.1 = true ∧ bleLex p.1 hi = true)) = true := by
        simpa using hc
      simp only [List.filter_cons, hb, if_true, List.filterMap_cons, if_pos hc, ih]
    · have hb : (decide (bleLex lo p.1 = true ∧ bleLex p.1 hi = true)) = false := by
        simpa using hc
      simp only [List.filter_cons, hb, Bool.false_eq_true, if_false,
        List.filterMap_cons, if_neg hc, ih]

theorem scan_file_eq {m : Store} (hm : WF m) (a u s f : GoString) :
    inMemoryService.scan m (artifactKey.Encode ⟨a, u, s, f, maxInt64⟩)
      (artifactKey.Encode ⟨a, u, s, f, 0⟩) =
    (fileRecords m a u s f).map (fun q => (⟨a, u, s, f, q.1⟩, q.2)) := by
  rw [scan_filterMap]
  unfold fileRecords
  rw [List.map_filterMap]
  apply List.filterMap_congr
  intro p hp
  obtain ⟨k, hdec, hval, hcanon⟩ := hm.2 p hp
  rw [hdec, hcanon]
  by_cases hmatch : k.AppName = a ∧ k.UserID = u ∧ k.SessionID = s ∧ k.FileName = f
  · have hrange := (inFileRange_iff hval a u s f).mpr hmatch
    obtain ⟨ka, ku, ks, kf, kv⟩ := k
    obtain ⟨h1, h2, h3, h4⟩ := hmatch
    simp only at h1 h2 h3 h4
    subst h1
    subst h2
    subst h3
    subst h4
    unfold fileEntry
    rw [hdec]
    simp [hrange.1, hrange.2]
  · have hrange := (inFileRange_iff hval a u s f).not.mpr hmatch
    have h1 : ¬(bleLex (artifactKey.Encode ⟨a, u, s, f, maxInt64⟩) k.Encode = true ∧
        bleLex k.Encode (artifactKey.Encode ⟨a, u, s, f, 0⟩) = true) := by
      simpa using hrange
    rw [if_neg h1]
    unfold fileEntry
    rw [hdec]
    simp [hmatch]

theorem scan_session_eq {m : Store} (hm : WF m) (a u s : GoString) :
    inMemoryService.scan m (artifactKey.Encode ⟨a, u, s, [], 0⟩)
      (artifactKey.Encode ⟨a, u, s ++ [0], [], 0⟩) =
    sessionRecords m a u s := by
  rw [scan_filterMap]
  unfold sessionRecords
  apply List.filterMap_congr
  intro p hp
  obtain ⟨k, hdec, hval, hcanon⟩ := hm.2 p hp
  rw [hdec, hcanon]
  by_cases hmatch : k.AppName = a ∧ k.UserID = u ∧ k.SessionID = s
  · have hrange := (inSessionRange_iff hval a u s).mpr hmatch
    simp [hrange.1, hrange.2, hmatch]
  · have hrange := (inSessionRange_iff hval a u s).not.mpr hmatch
    have h1 : ¬(bleLex (artifactKey.Encode ⟨a, u, s, [], 0⟩) k.Encode = true ∧
        bleLex k.Encode (artifactKey.Encode ⟨a, u, s ++ [0], [], 0⟩) = true) := by
      simpa using hrange
    rw [if_neg h1]
    simp [hmatch]

theorem scan_pairwise {m : Store} (hm : WF m) (lo hi : List Nat) :
    List.Pairwise (fun x y : artifactKey × Part => lexCmp x.1.Encode y.1.Encode = .lt)
      (inMemoryService.scan m lo hi) := by
  rw [scan_filterMap]
  apply List.pairwise_filterMap.mpr
  have hpw : List.Pairwise pairLt m := hm.1
  apply List.Pairwise.imp_of_mem ?_ hpw
  intro p q hp hq hpq b hb b2 hb2
  obtain ⟨kp, hdecp, -, hcanonp⟩ := hm.2 p hp
  obtain ⟨kq, hdecq, -, hcanonq⟩ := hm.2 q hq
  simp only [Option.mem_def] at hb hb2
  have hbp : b.1.Encode = p.1 := by
    by_cases hcond : bleLex lo p.1 = true ∧ bleLex p.1 hi = true
    · rw [if_pos hcond, hdecp] at hb
      cases hb
      exact hcanonp.symm
    · rw [if_neg hcond] at hb
      cases hb
  have hbq : b2.1.Encode = q.1 := by
    by_cases hcond : bleLex lo q.1 = true ∧ bleLex q.1 hi = true
    · rw [if_pos hcond, hdecq] at hb2
      cases hb2
      exact hcanonq.symm
    · rw [if_neg hcond] at hb2
      cases hb2
  rw [hbp, hbq]
  exact hpq

theorem keyLt_same_fields {a u s f : GoString} {v1 v2 : Int} :
    keyLt ⟨a, u, s, f, v1⟩ ⟨a, u, s, f, v2⟩ ↔ v2 < v1 := by
  unfold keyLt
  simp [lexCmp_self]

theorem mem_fileRecords {m : Store} (hm : WF m) {a u s f : GoString}
    {q : Int × Part} :
    q ∈ fileRecords m a u s f ↔
      ((artifactKey.Encode ⟨a, u, s, f, q.1⟩, q.2) ∈ m ∧
        ValidKey ⟨a, u, s, f, q.1⟩) := by
  unfold fileRecords
  rw [List.mem_filterMap]
  constructor
  · rintro ⟨p, hp, hfp⟩
    obtain ⟨k, hdec, hval, hcanon⟩ := hm.2 p hp
    unfold fileEntry at hfp
    rw [hdec] at hfp
    have hfp2 : (if k.AppName = a ∧ k.UserID = u ∧ k.SessionID = s ∧ k.FileName = f
        then some (k.Version, p.2) else none) = some q := hfp
    by_cases hmatch : k.AppName = a ∧ k.UserID = u ∧ k.SessionID = s ∧ k.FileName = f
    · rw [if_pos hmatch] at hfp2
      have hq : q = (k.Version, p.2) := (Option.some_injective _ hfp2).symm
      subst hq
      have hkeq : k = ⟨a, u, s, f, k.Version⟩ := by
        obtain ⟨ka, ku, ks, kf, kv⟩ := k
        obtain ⟨h1, h2, h3, h4⟩ := hmatch
        simp only at h1 h2 h3 h4
        simp [h1, h2, h3, h4]
      constructor
      · show ((⟨a, u, s, f, k.Version⟩ : artifactKey).Encode, p.2) ∈ m
        rw [← hkeq, ← hcanon]
        exact hp
      · show ValidKey ⟨a, u, s, f, k.Version⟩
        rw [← hkeq]
        exact hval
    · rw [if_neg hmatch] at hfp2
      cases hfp2
  · rintro ⟨hmem, hval⟩
    refine ⟨(artifactKey.Encode ⟨a, u, s, f, q.1⟩, q.2), hmem, ?_⟩
    unfold fileEntry
    rw [Decode_Encode (validKey_range hval)]
    show (if a = a ∧ u = u ∧ s = s ∧ f = f then some (q.1, q.2) else none) = some q
    rw [if_pos ⟨rfl, rfl, rfl, rfl⟩]

theorem fileRecords_pairwise {m : Store} (hm : WF m) (a u s f : GoString) :
    List.Pairwise (fun x y : Int × Part => y.1 < x.1) (fileRecords m a u s f) := by
  have hs := scan_pairwise hm (artifactKey.Encode ⟨a, u, s, f, maxInt64⟩)
    (artifactKey.Encode ⟨a, u, s, f, 0⟩)
  rw [scan_file_eq hm] at hs
  have hp := List.pairwise_map.mp hs
  refine List.Pairwise.imp_of_mem ?_ hp
  intro q r hq hr hlt
  have hvq : ValidKey ⟨a, u, s, f, q.1⟩ := ((mem_fileRecords hm).mp hq).2
  have hvr : ValidKey ⟨a, u, s, f, r.1⟩ := ((mem_fileRecords hm).mp hr).2
  have := (Encode_lt_iff (validKey_range hvq) (validKey_range hvr)).mp hlt
  exact keyLt_same_fields.mp this

theorem find_eq {m : Store} (hm : WF m) (a u s f : GoString) :
    inMemoryService.find m a u s f = (fileRecords m a u s f).head? := by
  have hs := scan_file_eq hm a u s f
  simp only [inMemoryService.find]
  rw [hs]
  cases fileRecords m a u s f with
  | nil => rfl
  | cons q rest => rfl

theorem head?_max {l : List (Int × Part)}
    (hl : List.Pairwise (fun x y : Int × Part => y.1 < x.1) l)
    {q : Int × Part} (hq : l.head? = some q) :
    ∀ r ∈ l, r.1 ≤ q.1 := by
  cases l with
  | nil => cases hq
  | cons x rest =>
    simp at hq
    subst hq
    intro r hr
    rcases List.mem_cons.mp hr with h | h
    · rw [h]
    · exact le_of_lt ((List.pairwise_cons.mp hl).1 r h)

/-!
Shared characterizations of the public operations.
-/

theorem nonempty_cond {a u s f : GoString} (ha : a ≠ []) (hu : u ≠ [])
    (hs : s ≠ []) (hf : f ≠ []) :
    ¬(a = [] ∨ u = [] ∨ s = [] ∨ f = []) := by
  simp [ha, hu, hs, hf]

/-- Outcome of the latest-version branch of Load (taken whenever the
requested version is not positive). -/
theorem load_latest_cases {m : Store} (hm : WF m) {a u s f : GoString}
    (hcond : ¬(a = [] ∨ u = [] ∨ s = [] ∨ f = [])) {v : Int} (hv : ¬(v > 0)) :
    (fileRecords m a u s f = [] ∧
      inMemoryService.Load m ⟨a, u, s, f, v⟩ = .error .notFound) ∨
    (∃ vm pm, inMemoryService.Load m ⟨a, u, s, f, v⟩ = .ok ⟨pm⟩ ∧
      (vm, pm) ∈ fileRecords m a u s f ∧
      ∀ r ∈ fileRecords m a u s f, r.1 ≤ vm) := by
  unfold inMemoryService.Load
  rw [if_neg hcond, if_neg hv, find_eq hm]
  cases hfr : fileRecords m a u s f with
  | nil => exact Or.inl ⟨rfl, rfl⟩
  | cons q rest =>
    refine Or.inr ⟨q.1, q.2, rfl, ?_, ?_⟩
    · rw [← hfr]
      have : (fileRecords m a u s f).head? = some q := by rw [hfr]; rfl
      exact List.mem_of_mem_head? this
    · rw [← hfr]
      intro r hr
      exact head?_max (fileRecords_pairwise hm a u s f) (by rw [hfr]; rfl) r hr

/-- C5: Load with a positive version is an exact point lookup and Load
with version zero returns the payload of the highest stored version; in
both shapes a not-found error occurs exactly when no matching record
exists.  (The store itself is read-only in Load by construction.) -/
theorem C5_load_spec {m : Store} (hm : WF m) {a u s f : GoString}
    (ha : a ≠ []) (hu : u ≠ []) (hs : s ≠ []) (hf : f ≠ []) :
    (∀ v : Int, 1 ≤ v → v ≤ maxInt64 →
      (∀ p, inMemoryService.Load m ⟨a, u, s, f, v⟩ = .ok ⟨p⟩ ↔
        (v, p) ∈ fileRecords m a u s f) ∧
      (inMemoryService.Load m ⟨a, u, s, f, v⟩ = .error .notFound ↔
        ∀ p, (v, p) ∉ fileRecords m a u s f)) ∧
    ((inMemoryService.Load m ⟨a, u, s, f, 0⟩ = .error .notFound ↔
        fileRecords m a u s f = []) ∧
      (fileRecords m a u s f ≠ [] →
        ∃ vm pm, inMemoryService.Load m ⟨a, u, s, f, 0⟩ = .ok ⟨pm⟩ ∧
          (vm, pm) ∈ fileRecords m a u s f ∧
          ∀ r ∈ fileRecords m a u s f, r.1 ≤ vm)) := by
  have hcond := nonempty_cond ha hu hs hf
  constructor
  · intro v hv1 hv2
    have hvk : ValidKey ⟨a, u, s, f, v⟩ := ⟨ha, hu, hs, hf, hv1, hv2⟩
    have hload : inMemoryService.Load m ⟨a, u, s, f, v⟩ =
        match omap.Get m (artifactKey.Encode ⟨a, u, s, f, v⟩) with
        | some artifact => .ok ⟨artifact⟩
        | none => .error .notFound := by
      unfold inMemoryService.Load
      rw [if_neg hcond, if_pos (by omega : (v : Int) > 0)]
      rfl
    constructor
    · intro p
      rw [hload]
      constructor
      · intro h
        cases hget : omap.Get m (artifactKey.Encode ⟨a, u, s, f, v⟩) with
        | none =>
          rw [hget] at h
          simp at h
        | some q =>
          rw [hget] at h
          have h2 : (Except.ok ⟨q⟩ : Except serviceError LoadResponse) = .ok ⟨p⟩ := h
          simp [LoadResponse.mk.injEq] at h2
          subst h2
          exact (mem_fileRecords hm).mpr ⟨(Get_some_iff hm.1).mp hget, hvk⟩
      · intro h
        have hget := (Get_some_iff hm.1).mpr ((mem_fileRecords hm).mp h).1
        rw [hget]
    · constructor
      · intro hErr p hp
        have hmem := (mem_fileRecords hm).mp hp
        have hget := (Get_some_iff hm.1).mpr hmem.1
        rw [hload, hget] at hErr
        simp at hErr
      · intro hnone
        rw [hload]
        cases hget : omap.Get m (artifactKey.Encode ⟨a, u, s, f, v⟩) with
        | none => rfl
        | some q =>
          have := (Get_some_iff hm.1).mp hget
          exact absurd ((mem_fileRecords hm).mpr ⟨this, hvk⟩) (hnone q)
  · constructor
    · rcases load_latest_cases hm hcond (by omega : ¬((0 : Int) > 0)) with
        ⟨hfr, hload⟩ | ⟨vm, pm, hload, hmem, -⟩
      · rw [hload, hfr]
        simp
      · rw [hload]
        constructor
        · intro h
          cases h
        · intro h
          rw [h] at hmem
          cases hmem
    · intro hne
      rcases load_latest_cases hm hcond (by omega : ¬((0 : Int) > 0)) with
        ⟨hfr, -⟩ | ⟨vm, pm, hload, hmem, hmax⟩
      · exact absurd hfr hne
      · exact ⟨vm, pm, hload, hmem, hmax⟩

/-- C10: a Load request with a strictly negative version takes the
latest-version branch, behaving exactly like an unset (zero) version. -/
theorem C10_negative_version_is_latest {m : Store} (hm : WF m)
    {a u s f : GoString} (ha : a ≠ []) (hu : u ≠ []) (hs : s ≠ [])
    (hf : f ≠ []) {v : Int} (hv : v < 0) :
    inMemoryService.Load m ⟨a, u, s, f, v⟩ =
      inMemoryService.Load m ⟨a, u, s, f, 0⟩ ∧
    ((fileRecords m a u s f = [] ∧
        inMemoryService.Load m ⟨a, u, s, f, v⟩ = .error .notFound) ∨
      (∃ vm pm, inMemoryService.Load m ⟨a, u, s, f, v⟩ = .ok ⟨pm⟩ ∧
        (vm, pm) ∈ fileRecords m a u s f ∧
        ∀ r ∈ fileRecords m a u s f, r.1 ≤ vm)) := by
  have hcond := nonempty_cond ha hu hs hf
  constructor
  · unfold inMemoryService.Load
    rw [if_neg hcond, if_neg hcond, if_neg (by omega : ¬(v > 0)),
      if_neg (by omega : ¬((0 : Int) > 0))]
  · exact load_latest_cases hm hcond (by omega)

/-- Characterization of Versions in terms of the stored records of the
file (shared helper). -/
theorem versions_characterization {m : Store} (hm : WF m) {a u s f : GoString}
    (hcond : ¬(a = [] ∨ u = [] ∨ s = [] ∨ f = [])) :
    (inMemoryService.Versions m ⟨a, u, s, f⟩ = .error .notFound ↔
      fileRecords m a u s f = []) ∧
    (fileRecords m a u s f ≠ [] →
      inMemoryService.Versions m ⟨a, u, s, f⟩ =
        .ok ⟨(fileRecords m a u s f).map (fun q => q.1)⟩) := by
  have hvers : (inMemoryService.scan m (artifactKey.Encode ⟨a, u, s, f, maxInt64⟩)
      (artifactKey.Encode ⟨a, u, s, f, 0⟩)).map (fun kv => kv.1.Version) =
      (fileRecords m a u s f).map (fun q => q.1) := by
    rw [scan_file_eq hm, List.map_map]
    rfl
  constructor
  · unfold inMemoryService.Versions
    rw [if_neg hcond]
    simp only [hvers]
    by_cases hfr : fileRecords m a u s f = []
    · rw [if_pos (by rw [hfr]; rfl)]
      simp [hfr]
    · rw [if_neg (by simpa using hfr)]
      simp [hfr]
  · intro hfr
    unfold inMemoryService.Versions
    rw [if_neg hcond]
    simp only [hvers]
    rw [if_neg (by simpa using hfr)]

/-- C8: Versions fails with not-found exactly when no version of the file
is stored, and otherwise returns precisely the stored version numbers in
strictly descending numeric order. -/
theorem C8_versions_spec {m : Store} (hm : WF m) {a u s f : GoString}
    (ha : a ≠ []) (hu : u ≠ []) (hs : s ≠ []) (hf : f ≠ []) :
    (inMemoryService.Versions m ⟨a, u, s, f⟩ = .error .notFound ↔
      fileRecords m a u s f = []) ∧
    (fileRecords m a u s f ≠ [] →
      inMemoryService.Versions m ⟨a, u, s, f⟩ =
        .ok ⟨(fileRecords m a u s f).map (fun q => q.1)⟩) ∧
    List.Pairwise (fun x y : Int => y < x)
      ((fileRecords m a u s f).map (fun q => q.1)) := by
  have hc := versions_characterization hm (nonempty_cond ha hu hs hf)
  refine ⟨hc.1, hc.2, ?_⟩
  have := fileRecords_pairwise hm a u s f
  exact List.Pairwise.map _ (fun x y h => h) this

/-- C3: decoding an encoded valid key (non-empty string fields, version
at least 1, an int64 value) returns the original key: the codec round
trips, and in particular Encode is injective on valid keys. -/
theorem C3_decode_encode_roundtrip (k : artifactKey)
    (ha : k.AppName ≠ []) (hu : k.UserID ≠ []) (hs : k.SessionID ≠ [])
    (hf : k.FileName ≠ []) (hv1 : 1 ≤ k.Version) (hv2 : k.Version ≤ maxInt64) :
    artifactKey.Decode k.Encode = some k := by
  apply Decode_Encode
  unfold int64Range
  unfold maxInt64 at hv2
  omega

/-- C4: for a fixed file identifier, a strictly higher version (within
the int64 range) produces a lexicographically strictly smaller encoded
key, so a forward scan of the exact-file range meets the highest version
first. -/
theorem C4_reverse_version_order (a u s f : GoString) (v1 v2 : Int)
    (ha : a ≠ []) (hu : u ≠ []) (hs : s ≠ []) (hf : f ≠ [])
    (h2 : 0 ≤ v2) (h12 : v2 < v1) (h1 : v1 ≤ maxInt64) :
    lexCmp (artifactKey.Encode ⟨a, u, s, f, v1⟩)
      (artifactKey.Encode ⟨a, u, s, f, v2⟩) = .lt := by
  apply Encode_lt_of_keyLt
  · show int64Range v1
    unfold int64Range
    unfold maxInt64 at h1
    omega
  · show int64Range v2
    unfold int64Range
    unfold maxInt64 at h1
    omega
  · exact keyLt_same_fields.mpr h12

/-- C1: evaluation of the code at the failing input.  Save on the empty
store with explicit Version 5 ignores the requested version: it stores
the record at version 1 and returns version 1, contradicting the
`SaveRequest.Version` documentation ("If set, the artifact will be saved
with this version"). -/
theorem C1_save_ignores_explicit_version :
    inMemoryService.Save inMemoryService.Mem
        ⟨[97], [117], [115], [102], 5, some ⟨9⟩⟩ =
      ([(artifactKey.Encode ⟨[97], [117], [115], [102], 1⟩, ⟨9⟩)],
        .ok ⟨1⟩) ∧
    (1 : Int) ≠ 5 := by
  constructor
  · rfl
  · omega

/-- C9: every operation rejects a request with a missing required field
(or, for Save, a nil payload) with an invalid-argument error — distinct
from not-found — and leaves the store untouched. -/
theorem C9_validation (m : Store) (sreq : SaveRequest) (lreq : LoadRequest)
    (dreq : DeleteRequest) (ireq : ListRequest) (vreq : VersionsRequest)
    (hsr : sreq.AppName = [] ∨ sreq.UserID = [] ∨ sreq.SessionID = [] ∨
      sreq.FileName = [] ∨ sreq.Part = none)
    (hlr : lreq.AppName = [] ∨ lreq.UserID = [] ∨ lreq.SessionID = [] ∨
      lreq.FileName = [])
    (hdr : dreq.AppName = [] ∨ dreq.UserID = [] ∨ dreq.SessionID = [] ∨
      dreq.FileName = [])
    (hir : ireq.AppName = [] ∨ ireq.UserID = [] ∨ ireq.SessionID = [])
    (hvr : vreq.AppName = [] ∨ vreq.UserID = [] ∨ vreq.SessionID = [] ∨
      vreq.FileName = []) :
    inMemoryService.Save m sreq = (m, .error .invalidArgument) ∧
    inMemoryService.Load m lreq = .error .invalidArgument ∧
    inMemoryService.Delete m dreq = (m, .error .invalidArgument) ∧
    inMemoryService.ListFiles m ireq = .error .invalidArgument ∧
    inMemoryService.Versions m vreq = .error .invalidArgument ∧
    serviceError.invalidArgument ≠ serviceError.notFound := by
  refine ⟨?_, ?_, ?_, ?_, ?_, by simp⟩
  · unfold inMemoryService.Save
    cases hp : sreq.Part with
    | none => rfl
    | some artifact =>
      have hcond : sreq.AppName = [] ∨ sreq.UserID = [] ∨ sreq.SessionID = [] ∨
          sreq.FileName = [] := by
        rcases hsr with h | h | h | h | h
        · exact Or.inl h
        · exact Or.inr (Or.inl h)
        · exact Or.inr (Or.inr (Or.inl h))
        · exact Or.inr (Or.inr (Or.inr h))
        · rw [hp] at h
          cases h
      rcases hcond with h | h | h | h <;> simp [h]
  · unfold inMemoryService.Load
    rw [if_pos hlr]
  · unfold inMemoryService.Delete
    rw [if_pos hdr]
  · unfold inMemoryService.ListFiles
    rw [if_pos hir]
  · unfold inMemoryService.Versions
    rw [if_pos hvr]

theorem filterMap_filter {α β : Type} (g : α → Bool) (F : α → Option β)
    (l : List α) :
    (l.filter g).filterMap F = l.filterMap (fun x => if g x then F x else none) := by
  induction l with
  | nil => rfl
  | cons x l ih =>
    by_cases hx : g x = true
    · simp only [List.filter_cons, hx, if_true, List.filterMap_cons, ih]
    · have hx2 : g x = false := by
        cases hgx : g x
        · rfl
        · exact absurd hgx hx
      simp only [List.filter_cons, hx2, Bool.false_eq_true, if_false,
        List.filterMap_cons, ih]

/-- After the range delete of a whole file, no record of that file
remains. -/
theorem fileRecords_DeleteRange_self {m : Store} (hm : WF m)
    (a u s f : GoString) :
    fileRecords (omap.DeleteRange m (artifactKey.Encode ⟨a, u, s, f, maxInt64⟩)
      (artifactKey.Encode ⟨a, u, s, f, 0⟩)) a u s f = [] := by
  unfold omap.DeleteRange fileRecords
  rw [filterMap_filter]
  rw [List.filterMap_eq_nil]
  intro p hp
  obtain ⟨k, hdec, hval, hcanon⟩ := hm.2 p hp
  by_cases hmatch : k.AppName = a ∧ k.UserID = u ∧ k.SessionID = s ∧ k.FileName = f
  · have hrange := (inFileRange_iff hval a u s f).mpr hmatch
    have hcnd : (decide ¬(bleLex (artifactKey.Encode ⟨a, u, s, f, maxInt64⟩) p.1 = true ∧
        bleLex p.1 (artifactKey.Encode ⟨a, u, s, f, 0⟩) = true)) = false := by
      rw [hcanon]
      simp [hrange.1, hrange.2]
    rw [hcnd]
    simp
  · simp only [fileEntry]
    rw [hdec]
    cases hcnd : (decide ¬(bleLex (artifactKey.Encode ⟨a, u, s, f, maxInt64⟩) p.1 = true ∧
        bleLex p.1 (artifactKey.Encode ⟨a, u, s, f, 0⟩) = true))
    · simp
    · simp only [if_true]
      have : (if k.AppName = a ∧ k.UserID = u ∧ k.SessionID = s ∧ k.FileName = f
          then some (k.Version, p.2) else none) = none := by
        rw [if_neg hmatch]
      exact this

/-- C6: a Delete with a nonzero version removes exactly the record at
that one key and never errors (also when the key is absent); a Delete
with version zero removes every version of the file, leaves every other
record untouched, and a subsequent Load and Versions on the file fail
with not-found. -/
theorem C6_delete_spec {m : Store} (hm : WF m) {a u s f : GoString}
    (ha : a ≠ []) (hu : u ≠ []) (hs : s ≠ []) (hf : f ≠ []) :
    (∀ v : Int, v ≠ 0 → int64Range v →
      (inMemoryService.Delete m ⟨a, u, s, f, v⟩).2 = .ok () ∧
      (∀ (k : artifactKey) (p : Part), ValidKey k →
        ((k.Encode, p) ∈ (inMemoryService.Delete m ⟨a, u, s, f, v⟩).1 ↔
          ((k.Encode, p) ∈ m ∧ k ≠ ⟨a, u, s, f, v⟩)))) ∧
    ((inMemoryService.Delete m ⟨a, u, s, f, 0⟩).2 = .ok () ∧
      fileRecords (inMemoryService.Delete m ⟨a, u, s, f, 0⟩).1 a u s f = [] ∧
      (∀ (k : artifactKey) (p : Part), ValidKey k →
        ¬(k.AppName = a ∧ k.UserID = u ∧ k.SessionID = s ∧ k.FileName = f) →
        ((k.Encode, p) ∈ (inMemoryService.Delete m ⟨a, u, s, f, 0⟩).1 ↔
          (k.Encode, p) ∈ m)) ∧
      inMemoryService.Versions (inMemoryService.Delete m ⟨a, u, s, f, 0⟩).1
        ⟨a, u, s, f⟩ = .error .notFound ∧
      inMemoryService.Load (inMemoryService.Delete m ⟨a, u, s, f, 0⟩).1
        ⟨a, u, s, f, 0⟩ = .error .notFound) := by
  have hcond := nonempty_cond ha hu hs hf
  have hDel0 : inMemoryService.Delete m ⟨a, u, s, f, 0⟩ =
      (omap.DeleteRange m (artifactKey.Encode ⟨a, u, s, f, maxInt64⟩)
        (artifactKey.Encode ⟨a, u, s, f, 0⟩), .ok ()) := by
    unfold inMemoryService.Delete
    rw [if_neg hcond, if_neg (by simp)]
  have hWFd : WF (omap.DeleteRange m (artifactKey.Encode ⟨a, u, s, f, maxInt64⟩)
      (artifactKey.Encode ⟨a, u, s, f, 0⟩)) := WF_filter hm _
  have hfr0 := fileRecords_DeleteRange_self hm a u s f
  constructor
  · intro v hv hvr
    have hDelv : inMemoryService.Delete m ⟨a, u, s, f, v⟩ =
        (omap.Delete m (artifactKey.Encode ⟨a, u, s, f, v⟩), .ok ()) := by
      unfold inMemoryService.Delete
      rw [if_neg hcond, if_pos (by simpa using hv)]
      rfl
    refine ⟨by rw [hDelv], ?_⟩
    intro k p hk
    rw [hDelv]
    unfold omap.Delete
    rw [List.mem_filter]
    constructor
    · rintro ⟨hmem, hne⟩
      refine ⟨hmem, ?_⟩
      intro hkeq
      subst hkeq
      simp at hne
    · rintro ⟨hmem, hne⟩
      refine ⟨hmem, ?_⟩
      simp only [decide_eq_true_eq]
      intro henc
      have := Encode_injective (validKey_range hk) hvr henc
      exact hne this
  · refine ⟨by rw [hDel0], ?_, ?_, ?_, ?_⟩
    · rw [hDel0]
      exact hfr0
    · intro k p hk hne
      rw [hDel0]
      unfold omap.DeleteRange
      rw [List.mem_filter]
      have hrange := (inFileRange_iff hk a u s f).not.mpr hne
      constructor
      · rintro ⟨hmem, -⟩
        exact hmem
      · intro hmem
        refine ⟨hmem, ?_⟩
        rw [decide_eq_true_eq]
        exact hrange
    · rw [hDel0]
      exact ((versions_characterization hWFd hcond).1).mpr hfr0
    · rw [hDel0]
      rcases load_latest_cases hWFd hcond (v := 0) (by omega) with ⟨-, h⟩ | ⟨vm, pm, -, hmem, -⟩
      · exact h
      · rw [hfr0] at hmem
        cases hmem

theorem sessionRecords_fields {m : Store} {a u s : GoString}
    {kp : artifactKey × Part} (h : kp ∈ sessionRecords m a u s) :
    kp.1.AppName = a ∧ kp.1.UserID = u ∧ kp.1.SessionID = s := by
  unfold sessionRecords at h
  rcases List.mem_filterMap.mp h with ⟨p, hp, hfp⟩
  cases hdec : artifactKey.Decode p.1 with
  | none => rw [hdec] at hfp; cases hfp
  | some k =>
    rw [hdec] at hfp
    have hfp2 : (if k.AppName = a ∧ k.UserID = u ∧ k.SessionID = s
        then some (k, p.2) else none) = some kp := hfp
    by_cases hc : k.AppName = a ∧ k.UserID = u ∧ k.SessionID = s
    · rw [if_pos hc] at hfp2
      have := Option.some_injective _ hfp2
      rw [← this]
      exact hc
    · rw [if_neg hc] at hfp2
      cases hfp2

theorem sessionRecords_fileRecords {m : Store} {a u s : GoString}
    (fn : GoString) :
    (∃ kv ∈ sessionRecords m a u s, kv.1.FileName = fn) ↔
    (∃ v p, (v, p) ∈ fileRecords m a u s fn) := by
  constructor
  · rintro ⟨kv, hkv, hfn⟩
    unfold sessionRecords at hkv
    rcases List.mem_filterMap.mp hkv with ⟨p, hp, hfp⟩
    cases hdec : artifactKey.Decode p.1 with
    | none => rw [hdec] at hfp; cases hfp
    | some k =>
      rw [hdec] at hfp
      have hfp2 : (if k.AppName = a ∧ k.UserID = u ∧ k.SessionID = s
          then some (k, p.2) else none) = some kv := hfp
      by_cases hc : k.AppName = a ∧ k.UserID = u ∧ k.SessionID = s
      · rw [if_pos hc] at hfp2
        have hkv2 := Option.some_injective _ hfp2
        have hkfn : k.FileName = fn := by
          rw [← hkv2] at hfn
          exact hfn
        refine ⟨k.Version, p.2, ?_⟩
        unfold fileRecords
        apply List.mem_filterMap.mpr
        refine ⟨p, hp, ?_⟩
        simp only [fileEntry]
        rw [hdec]
        have : (if k.AppName = a ∧ k.UserID = u ∧ k.SessionID = s ∧ k.FileName = fn
            then some (k.Version, p.2) else none) = some (k.Version, p.2) := by
          rw [if_pos ⟨hc.1, hc.2.1, hc.2.2, hkfn⟩]
        exact this
      · rw [if_neg hc] at hfp2
        cases hfp2
  · rintro ⟨v, p, hvp⟩
    unfold fileRecords at hvp
    rcases List.mem_filterMap.mp hvp with ⟨pr, hpr, hfp⟩
    simp only [fileEntry] at hfp
    cases hdec : artifactKey.Decode pr.1 with
    | none => rw [hdec] at hfp; cases hfp
    | some k =>
      rw [hdec] at hfp
      have hfp2 : (if k.AppName = a ∧ k.UserID = u ∧ k.SessionID = s ∧ k.FileName = fn
          then some (k.Version, pr.2) else none) = some (v, p) := hfp
      by_cases hc : k.AppName = a ∧ k.UserID = u ∧ k.SessionID = s ∧ k.FileName = fn
      · refine ⟨(k, pr.2), ?_, hc.2.2.2⟩
        unfold sessionRecords
        apply List.mem_filterMap.mpr
        refine ⟨pr, hpr, ?_⟩
        rw [hdec]
        have : (if k.AppName = a ∧ k.UserID = u ∧ k.SessionID = s
            then some (k, pr.2) else none) = some (k, pr.2) := by
          rw [if_pos ⟨hc.1, hc.2.1, hc.2.2.1⟩]
        exact this
      · rw [if_neg hc] at hfp2
        cases hfp2

theorem listFold_mem (s : GoString) :
    ∀ (l : List (artifactKey × Part)),
    (∀ kv ∈ l, kv.1.SessionID = s) →
    ∀ (acc : List GoString) (x : GoString),
    (x ∈ l.foldl (fun acc kv => if kv.1.SessionID ≠ s then acc
      else if kv.1.FileName ∈ acc then acc else acc ++ [kv.1.FileName]) acc ↔
    (x ∈ acc ∨ ∃ kv ∈ l, kv.1.FileName = x)) := by
  intro l
  induction l with
  | nil =>
    intro _ acc x
    simp
  | cons kv l ih =>
    intro hses acc x
    have hkv : kv.1.SessionID = s := hses kv (List.mem_cons_self _ _)
    have hses2 : ∀ q ∈ l, q.1.SessionID = s :=
      fun q hq => hses q (List.mem_cons_of_mem _ hq)
    rw [List.foldl_cons]
    rw [if_neg (by simp [hkv])]
    by_cases hmem : kv.1.FileName ∈ acc
    · rw [if_pos hmem, ih hses2 acc x]
      constructor
      · rintro (h | ⟨q, hq, hq2⟩)
        · exact Or.inl h
        · exact Or.inr ⟨q, List.mem_cons_of_mem _ hq, hq2⟩
      · rintro (h | ⟨q, hq, hq2⟩)
        · exact Or.inl h
        · rcases List.mem_cons.mp hq with h2 | h2
          · subst h2
            rw [hq2] at hmem
            exact Or.inl hmem
          · exact Or.inr ⟨q, h2, hq2⟩
    · rw [if_neg hmem, ih hses2 _ x]
      constructor
      · rintro (h | ⟨q, hq, hq2⟩)
        · rcases List.mem_append.mp h with h2 | h2
          · exact Or.inl h2
          · rcases List.mem_singleton.mp h2 with h3
            exact Or.inr ⟨kv, List.mem_cons_self _ _, h3.symm⟩
        · exact Or.inr ⟨q, List.mem_cons_of_mem _ hq, hq2⟩
      · rintro (h | ⟨q, hq, hq2⟩)
        · exact Or.inl (List.mem_append.mpr (Or.inl h))
        · rcases List.mem_cons.mp hq with h2 | h2
          · subst h2
            exact Or.inl (List.mem_append.mpr (Or.inr (by simp [hq2])))
          · exact Or.inr ⟨q, h2, hq2⟩

theorem listFold_nodup (s : GoString) :
    ∀ (l : List (artifactKey × Part)) (acc : List GoString), acc.Nodup →
    (l.foldl (fun acc kv => if kv.1.SessionID ≠ s then acc
      else if kv.1.FileName ∈ acc then acc else acc ++ [kv.1.FileName]) acc).Nodup := by
  intro l
  induction l with
  | nil =>
    intro acc hacc
    simpa using hacc
  | cons kv l ih =>
    intro acc hacc
    rw [List.foldl_cons]
    by_cases hkv : kv.1.SessionID ≠ s
    · rw [if_pos hkv]
      exact ih acc hacc
    · rw [if_neg hkv]
      by_cases hmem : kv.1.FileName ∈ acc
      · rw [if_pos hmem]
        exact ih acc hacc
      · rw [if_neg hmem]
        apply ih
        simp [List.nodup_append, hacc, hmem]

/-- C7: List returns (never with a not-found error) exactly the
deduplicated set of file names having at least one stored version in the
given session. -/
theorem C7_list_spec {m : Store} (hm : WF m) {a u s : GoString}
    (ha : a ≠ []) (hu : u ≠ []) (hs : s ≠ []) :
    ∃ names : List GoString,
      inMemoryService.ListFiles m ⟨a, u, s⟩ = .ok ⟨names⟩ ∧
      names.Nodup ∧
      (∀ fn : GoString, fn ∈ names ↔ ∃ v p, (v, p) ∈ fileRecords m a u s fn) := by
  have hcond : ¬(a = [] ∨ u = [] ∨ s = []) := by simp [ha, hu, hs]
  have hscan := scan_session_eq hm a u s
  have hlist : inMemoryService.ListFiles m ⟨a, u, s⟩ =
      .ok ⟨(sessionRecords m a u s).foldl (fun acc kv =>
        if kv.1.SessionID ≠ s then acc
        else if kv.1.FileName ∈ acc then acc else acc ++ [kv.1.FileName]) []⟩ := by
    unfold inMemoryService.ListFiles
    rw [if_neg hcond]
    show (Except.ok ⟨(inMemoryService.scan m (artifactKey.Encode ⟨a, u, s, [], 0⟩)
        (artifactKey.Encode ⟨a, u, s ++ [0], [], 0⟩)).foldl (fun acc kv =>
        if kv.1.SessionID ≠ s then acc
        else if kv.1.FileName ∈ acc then acc else acc ++ [kv.1.FileName]) []⟩ :
      Except serviceError ListResponse) =
      .ok ⟨(sessionRecords m a u s).foldl (fun acc kv =>
        if kv.1.SessionID ≠ s then acc
        else if kv.1.FileName ∈ acc then acc else acc ++ [kv.1.FileName]) []⟩
    rw [hscan]
  refine ⟨_, hlist, ?_, ?_⟩
  · exact listFold_nodup s (sessionRecords m a u s) [] (by simp)
  · intro fn
    rw [listFold_mem s (sessionRecords m a u s)
      (fun kv hkv => (sessionRecords_fields hkv).2.2) [] fn]
    rw [show (fn ∈ ([] : List GoString) ∨ ∃ kv ∈ sessionRecords m a u s,
        kv.1.FileName = fn) ↔ (∃ kv ∈ sessionRecords m a u s, kv.1.FileName = fn)
      from by simp]
    exact sessionRecords_fileRecords fn

/-!
Effect of Save on the records of a file, and the auto-version law.
-/

theorem Set_cons_lt {m : Store} {k : List Nat} {v : Part} {p : List Nat × Part}
    (hc : lexCmp k p.1 = .lt) :
    omap.Set (p :: m) k v = (k, v) :: p :: m := by
  obtain ⟨p1, p2⟩ := p
  unfold omap.Set
  rw [hc]

theorem Set_cons_eq {m : Store} {k : List Nat} {v : Part} {p : List Nat × Part}
    (hc : lexCmp k p.1 = .eq) :
    omap.Set (p :: m) k v = (k, v) :: m := by
  obtain ⟨p1, p2⟩ := p
  unfold omap.Set
  rw [hc]

theorem Set_cons_gt {m : Store} {k : List Nat} {v : Part} {p : List Nat × Part}
    (hc : lexCmp k p.1 = .gt) :
    omap.Set (p :: m) k v = p :: omap.Set m k v := by
  obtain ⟨p1, p2⟩ := p
  conv_lhs => unfold omap.Set
  rw [hc]

theorem fileRecords_cons_some {a u s f : GoString} {x : List Nat × Part}
    {r : Int × Part} (hx : fileEntry a u s f x = some r) (l : Store) :
    fileRecords (x :: l) a u s f = r :: fileRecords l a u s f := by
  unfold fileRecords
  rw [List.filterMap_cons, hx]

theorem fileRecords_cons_none {a u s f : GoString} {x : List Nat × Part}
    (hx : fileEntry a u s f x = none) (l : Store) :
    fileRecords (x :: l) a u s f = fileRecords l a u s f := by
  unfold fileRecords
  rw [List.filterMap_cons, hx]

theorem fileEntry_encode_self {a u s f : GoString} {v : Int}
    (hrange : int64Range v) (pv : Part) :
    fileEntry a u s f (artifactKey.Encode ⟨a, u, s, f, v⟩, pv) = some (v, pv) := by
  unfold fileEntry
  show (match artifactKey.Decode (artifactKey.Encode ⟨a, u, s, f, v⟩) with
    | some k =>
      if k.AppName = a ∧ k.UserID = u ∧ k.SessionID = s ∧ k.FileName = f then
        some (k.Version, pv)
      else none
    | none => none) = some (v, pv)
  rw [Decode_Encode hrange]
  show (if a = a ∧ u = u ∧ s = s ∧ f = f then some (v, pv) else none) = some (v, pv)
  rw [if_pos ⟨rfl, rfl, rfl, rfl⟩]

theorem fileRecords_Set_cons {a u s f : GoString} {v : Int}
    (hval : ValidKey ⟨a, u, s, f, v⟩) (q : Part) :
    ∀ m : Store, WF m → (∀ r ∈ fileRecords m a u s f, r.1 < v) →
    fileRecords (omap.Set m (artifactKey.Encode ⟨a, u, s, f, v⟩) q) a u s f =
      (v, q) :: fileRecords m a u s f := by
  have hrange : int64Range v := validKey_range hval
  intro m
  induction m with
  | nil =>
    intro _ _
    show fileRecords [(artifactKey.Encode ⟨a, u, s, f, v⟩, q)] a u s f = [(v, q)]
    rw [fileRecords_cons_some (fileEntry_encode_self hrange q)]
    rfl
  | cons p rest ih =>
    intro hm hmax
    have hWFrest : WF rest :=
      ⟨(List.pairwise_cons.mp hm.1).2, fun x hx => hm.2 x (List.mem_cons_of_mem _ hx)⟩
    obtain ⟨k0, hdec0, hval0, hcanon0⟩ := hm.2 p (List.mem_cons_self _ _)
    rcases hc : lexCmp (artifactKey.Encode ⟨a, u, s, f, v⟩) p.1 with _ | _ | _
    · rw [Set_cons_lt hc, fileRecords_cons_some (fileEntry_encode_self hrange q)]
    · exfalso
      have he : artifactKey.Encode ⟨a, u, s, f, v⟩ = p.1 := lexCmp_eq_eq.mp hc
      have hk0 : k0 = ⟨a, u, s, f, v⟩ := by
        apply Encode_injective (validKey_range hval0) hrange
        rw [← hcanon0, ← he]
      have hdec0b : artifactKey.Decode p.1 = some ⟨a, u, s, f, v⟩ := by
        rw [hdec0, hk0]
      have hent : fileEntry a u s f p = some (v, p.2) := by
        unfold fileEntry
        rw [hdec0b]
        show (if a = a ∧ u = u ∧ s = s ∧ f = f then some (v, p.2) else none) =
          some (v, p.2)
        rw [if_pos ⟨rfl, rfl, rfl, rfl⟩]
      have hmem : (v, p.2) ∈ fileRecords (p :: rest) a u s f := by
        rw [fileRecords_cons_some hent]
        exact List.mem_cons_self _ _
      exact absurd (hmax _ hmem) (lt_irrefl v)
    · have hnone : fileEntry a u s f p = none := by
        by_cases hmatch : k0.AppName = a ∧ k0.UserID = u ∧ k0.SessionID = s ∧
            k0.FileName = f
        · exfalso
          have hk0 : k0 = ⟨a, u, s, f, k0.Version⟩ := by
            obtain ⟨ka, ku, ks, kf, kv⟩ := k0
            obtain ⟨h1, h2, h3, h4⟩ := hmatch
            simp only at h1 h2 h3 h4
            simp [h1, h2, h3, h4]
          have hlt : lexCmp p.1 (artifactKey.Encode ⟨a, u, s, f, v⟩) = .lt :=
            lexCmp_swap.mp hc
          rw [hcanon0] at hlt
          have hklt := (Encode_lt_iff (validKey_range hval0) hrange).mp hlt
          rw [hk0] at hklt
          have hvlt : v < k0.Version := keyLt_same_fields.mp hklt
          have hent : fileEntry a u s f p = some (k0.Version, p.2) := by
            unfold fileEntry
            rw [show artifactKey.Decode p.1 = some ⟨a, u, s, f, k0.Version⟩ from by
              rw [hdec0, hk0]]
            show (if a = a ∧ u = u ∧ s = s ∧ f = f then some (k0.Version, p.2)
              else none) = some (k0.Version, p.2)
            rw [if_pos ⟨rfl, rfl, rfl, rfl⟩]
          have hmem : (k0.Version, p.2) ∈ fileRecords (p :: rest) a u s f := by
            rw [fileRecords_cons_some hent]
            exact List.mem_cons_self _ _
          have := hmax _ hmem
          simp at this
          omega
        · unfold fileEntry
          rw [hdec0]
          show (if k0.AppName = a ∧ k0.UserID = u ∧ k0.SessionID = s ∧
            k0.FileName = f then some (k0.Version, p.2) else none) = none
          rw [if_neg hmatch]
      rw [Set_cons_gt hc, fileRecords_cons_none hnone,
        fileRecords_cons_none hnone]
      apply ih hWFrest
      intro r hr
      apply hmax
      rw [fileRecords_cons_none hnone]
      exact hr

theorem descVersions_succ (n : Nat) :
    descVersions (n + 1) = ((n : Int) + 1) :: descVersions n := by
  unfold descVersions
  rw [List.range_succ, List.reverse_append]
  simp

theorem mem_descVersions {n : Nat} {x : Int} (h : x ∈ descVersions n) :
    x ≤ (n : Int) := by
  unfold descVersions at h
  simp at h
  obtain ⟨i, hi, hx⟩ := h
  omega

/-- One auto-versioned Save on a store whose file versions are exactly
n, ..., 1 assigns version n+1. -/
theorem Save_auto_step {m : Store} {a u s f : GoString}
    (ha : a ≠ []) (hu : u ≠ []) (hs : s ≠ []) (hf : f ≠ []) (hm : WF m) {n : Nat}
    (hvers : (fileRecords m a u s f).map (fun r => r.1) = descVersions n)
    (hn : (n : Int) + 1 ≤ maxInt64) (q : Part) :
    (inMemoryService.Save m ⟨a, u, s, f, 0, some q⟩).2 = .ok ⟨(n : Int) + 1⟩ ∧
    WF (inMemoryService.Save m ⟨a, u, s, f, 0, some q⟩).1 ∧
    (fileRecords (inMemoryService.Save m ⟨a, u, s, f, 0, some q⟩).1 a u s f).map
      (fun r => r.1) = descVersions (n + 1) := by
  have hcond := nonempty_cond ha hu hs hf
  have hval : ValidKey ⟨a, u, s, f, (n : Int) + 1⟩ := by
    refine ⟨ha, hu, hs, hf, ?_, ?_⟩
    · show (1 : Int) ≤ (n : Int) + 1
      omega
    · show (n : Int) + 1 ≤ maxInt64
      exact hn
  have hfind := find_eq hm a u s f
  have hsave : ∀ nv : Int, (match inMemoryService.find m a u s f with
      | some (internalVer, _) => internalVer + 1
      | none => 1) = nv →
      inMemoryService.Save m ⟨a, u, s, f, 0, some q⟩ =
        (omap.Set m (artifactKey.Encode ⟨a, u, s, f, nv⟩) q, .ok ⟨nv⟩) := by
    intro nv hnv
    show (if a = [] ∨ u = [] ∨ s = [] ∨ f = [] then
        (m, Except.error serviceError.invalidArgument)
      else (inMemoryService.set m a u s f
          (match inMemoryService.find m a u s f with
            | some (internalVer, _) => internalVer + 1
            | none => 1) q,
        Except.ok (SaveResponse.mk (match inMemoryService.find m a u s f with
          | some (internalVer, _) => internalVer + 1
          | none => 1)))) =
      (omap.Set m (artifactKey.Encode ⟨a, u, s, f, nv⟩) q,
        Except.ok (SaveResponse.mk nv))
    rw [if_neg hcond, hnv]
    rfl
  have hnv : (match inMemoryService.find m a u s f with
      | some (internalVer, _) => internalVer + 1
      | none => 1) = (n : Int) + 1 := by
    cases hn2 : n with
    | zero =>
      have hfr : fileRecords m a u s f = [] := by
        apply List.map_eq_nil.mp
        rw [hvers, hn2]
        rfl
      rw [hfind, hfr]
      simp
    | succ k =>
      cases hfr : fileRecords m a u s f with
      | nil =>
        rw [hfr] at hvers
        rw [hn2, descVersions_succ] at hvers
        cases hvers
      | cons r rest =>
        rw [hfr] at hvers
        rw [hn2, descVersions_succ] at hvers
        have hr1 : r.1 = (k : Int) + 1 := by
          have := congrArg List.head? hvers
          simp at this
          exact this
        rw [hfind, hfr]
        have hgoal : (match (r :: rest).head? with
            | some (internalVer, _) => internalVer + 1
            | none => (1 : Int)) = r.1 + 1 := rfl
        rw [hgoal, hr1]
        push_cast
        ring
  have hs2 := hsave _ hnv
  have hmax : ∀ r ∈ fileRecords m a u s f, r.1 < (n : Int) + 1 := by
    intro r hr
    have : r.1 ∈ descVersions n := by
      rw [← hvers]
      exact List.mem_map_of_mem _ hr
    have := mem_descVersions this
    omega
  refine ⟨by rw [hs2], ?_, ?_⟩
  · rw [hs2]
    exact WF_Set hm hval q
  · rw [hs2]
    show (fileRecords (omap.Set m (artifactKey.Encode ⟨a, u, s, f, (n : Int) + 1⟩) q)
      a u s f).map (fun r => r.1) = descVersions (n + 1)
    rw [fileRecords_Set_cons hval q m hm hmax, descVersions_succ]
    simp [hvers]

/-- C2: starting from any well-formed store holding no versions of the
given file (other files and sessions may be present), N auto-versioned
saves of that file return versions 1, 2, ..., N in call order. -/
theorem C2_auto_version_monotonic (a u s f : GoString)
    (ha : a ≠ []) (hu : u ≠ []) (hs : s ≠ []) (hf : f ≠ [])
    (m : Store) (hm : WF m) (hnone : fileRecords m a u s f = [])
    (ps : List Part) (hN : (ps.length : Int) ≤ maxInt64) :
    (saveAll a u s f m ps).2 =
      (List.range ps.length).map (fun i => .ok ⟨(i : Int) + 1⟩) := by
  have hstep : ∀ (ps2 : List Part) (m : Store) (n : Nat), WF m →
      (fileRecords m a u s f).map (fun r => r.1) = descVersions n →
      ((n : Int) + ps2.length ≤ maxInt64) →
      (saveAll a u s f m ps2).2 =
        (List.range ps2.length).map (fun i => .ok ⟨(n : Int) + i + 1⟩) := by
    intro ps2
    induction ps2 with
    | nil =>
      intro m n hm hvers hlen
      rfl
    | cons p ps2 ih =>
      intro m n hm hvers hlen
      have hlen2 : (((p :: ps2).length : Nat) : Int) = (ps2.length : Int) + 1 := by
        simp
      have hlen3 : (0 : Int) ≤ (ps2.length : Int) := by positivity
      have hn : (n : Int) + 1 ≤ maxInt64 := by omega
      obtain ⟨hres, hWF2, hvers2⟩ := Save_auto_step ha hu hs hf hm hvers hn p
      have ih2 := ih (inMemoryService.Save m ⟨a, u, s, f, 0, some p⟩).1 (n + 1)
        hWF2 hvers2 (by push_cast; omega)
      show ((inMemoryService.Save m ⟨a, u, s, f, 0, some p⟩).2 ::
        (saveAll a u s f (inMemoryService.Save m ⟨a, u, s, f, 0, some p⟩).1 ps2).2) =
        (List.range (p :: ps2).length).map (fun i => .ok ⟨(n : Int) + i + 1⟩)
      rw [hres, ih2]
      rw [show (p :: ps2).length = ps2.length + 1 from rfl]
      rw [List.range_succ_eq_map, List.map_cons, List.map_map]
      have hfe : (fun i : Nat => (Except.ok ⟨((n + 1 : Nat) : Int) + (i : Int) + 1⟩ :
          Except serviceError SaveResponse)) =
          ((fun i : Nat => (Except.ok ⟨(n : Int) + (i : Int) + 1⟩ :
            Except serviceError SaveResponse)) ∘ Nat.succ) := by
        funext i
        simp only [Function.comp, Except.ok.injEq, SaveResponse.mk.injEq,
          Nat.succ_eq_add_one]
        push_cast
        ring
      rw [hfe]
      congr 1
  have h0 := hstep ps m 0 hm (by rw [hnone]; rfl) (by simpa using hN)
  rw [h0]
  simp

theorem C2_witness :
    (([97] : GoString) ≠ [] ∧ ([117] : GoString) ≠ [] ∧ ([115] : GoString) ≠ [] ∧
      ([103] : GoString) ≠ [] ∧ WF wStore ∧
      fileRecords wStore [97] [117] [115] [103] = [] ∧
      (([(⟨1⟩ : Part), ⟨2⟩, ⟨3⟩].length : Int) ≤ maxInt64)) ∧
    (saveAll [97] [117] [115] [103] wStore [(⟨1⟩ : Part), ⟨2⟩, ⟨3⟩]).2 =
      (List.range ([(⟨1⟩ : Part), ⟨2⟩, ⟨3⟩].length)).map
        (fun i => .ok ⟨(i : Int) + 1⟩) :=
  ⟨⟨by decide, by decide, by decide, by decide, by decide, by decide, by decide⟩,
    C2_auto_version_monotonic [97] [117] [115] [103] (by decide) (by decide)
      (by decide) (by decide) wStore (by decide) (by decide)
      [⟨1⟩, ⟨2⟩, ⟨3⟩] (by decide)⟩

theorem C3_witness :
    ((⟨[97], [117], [115], [102], 123⟩ : artifactKey).AppName ≠ [] ∧
      (1 : Int) ≤ 123 ∧ (123 : Int) ≤ maxInt64) ∧
    artifactKey.Decode (artifactKey.Encode ⟨[97], [117], [115], [102], 123⟩) =
      some ⟨[97], [117], [115], [102], 123⟩ :=
  ⟨⟨by decide, by decide, by decide⟩,
    C3_decode_encode_roundtrip ⟨[97], [117], [115], [102], 123⟩ (by decide)
      (by decide) (by decide) (by decide) (by decide) (by decide)⟩

theorem C4_witness :
    ((0 : Int) ≤ 1 ∧ (1 : Int) < 2 ∧ (2 : Int) ≤ maxInt64) ∧
    lexCmp (artifactKey.Encode ⟨[97], [117], [115], [102], 2⟩)
      (artifactKey.Encode ⟨[97], [117], [115], [102], 1⟩) = .lt :=
  ⟨⟨by decide, by decide, by decide⟩,
    C4_reverse_version_order [97] [117] [115] [102] 2 1 (by decide) (by decide)
      (by decide) (by decide) (by decide) (by decide) (by decide)⟩

theorem C5_witness :
    WF wStore ∧
    ((∀ v : Int, 1 ≤ v → v ≤ maxInt64 →
      (∀ p, inMemoryService.Load wStore ⟨[97], [117], [115], [102], v⟩ = .ok ⟨p⟩ ↔
        (v, p) ∈ fileRecords wStore [97] [117] [115] [102]) ∧
      (inMemoryService.Load wStore ⟨[97], [117], [115], [102], v⟩ =
          .error .notFound ↔
        ∀ p, (v, p) ∉ fileRecords wStore [97] [117] [115] [102])) ∧
    ((inMemoryService.Load wStore ⟨[97], [117], [115], [102], 0⟩ =
          .error .notFound ↔
        fileRecords wStore [97] [117] [115] [102] = []) ∧
      (fileRecords wStore [97] [117] [115] [102] ≠ [] →
        ∃ vm pm, inMemoryService.Load wStore ⟨[97], [117], [115], [102], 0⟩ =
            .ok ⟨pm⟩ ∧
          (vm, pm) ∈ fileRecords wStore [97] [117] [115] [102] ∧
          ∀ r ∈ fileRecords wStore [97] [117] [115] [102], r.1 ≤ vm))) :=
  ⟨by decide,
    C5_load_spec (by decide) (by decide) (by decide) (by decide) (by decide)⟩

theorem C6_witness :
    WF wStore ∧
    ((∀ v : Int, v ≠ 0 → int64Range v →
      (inMemoryService.Delete wStore ⟨[97], [117], [115], [102], v⟩).2 = .ok () ∧
      (∀ (k : artifactKey) (p : Part), ValidKey k →
        ((k.Encode, p) ∈
            (inMemoryService.Delete wStore ⟨[97], [117], [115], [102], v⟩).1 ↔
          ((k.Encode, p) ∈ wStore ∧ k ≠ ⟨[97], [117], [115], [102], v⟩)))) ∧
    ((inMemoryService.Delete wStore ⟨[97], [117], [115], [102], 0⟩).2 = .ok () ∧
      fileRecords (inMemoryService.Delete wStore ⟨[97], [117], [115], [102], 0⟩).1
        [97] [117] [115] [102] = [] ∧
      (∀ (k : artifactKey) (p : Part), ValidKey k →
        ¬(k.AppName = [97] ∧ k.UserID = [117] ∧ k.SessionID = [115] ∧
          k.FileName = [102]) →
        ((k.Encode, p) ∈
            (inMemoryService.Delete wStore ⟨[97], [117], [115], [102], 0⟩).1 ↔
          (k.Encode, p) ∈ wStore)) ∧
      inMemoryService.Versions
        (inMemoryService.Delete wStore ⟨[97], [117], [115], [102], 0⟩).1
        ⟨[97], [117], [115], [102]⟩ = .error .notFound ∧
      inMemoryService.Load
        (inMemoryService.Delete wStore ⟨[97], [117], [115], [102], 0⟩).1
        ⟨[97], [117], [115], [102], 0⟩ = .error .notFound)) :=
  ⟨by decide,
    C6_delete_spec (by decide) (by decide) (by decide) (by decide) (by decide)⟩

theorem C7_witness :
    WF wStore ∧
    (∃ names : List GoString,
      inMemoryService.ListFiles wStore ⟨[97], [117], [115]⟩ = .ok ⟨names⟩ ∧
      names.Nodup ∧
      (∀ fn : GoString, fn ∈ names ↔
        ∃ v p, (v, p) ∈ fileRecords wStore [97] [117] [115] fn)) :=
  ⟨by decide, C7_list_spec (by decide) (by decide) (by decide) (by decide)⟩

theorem C8_witness :
    WF wStore ∧
    ((inMemoryService.Versions wStore ⟨[97], [117], [115], [102]⟩ =
        .error .notFound ↔
      fileRecords wStore [97] [117] [115] [102] = []) ∧
    (fileRecords wStore [97] [117] [115] [102] ≠ [] →
      inMemoryService.Versions wStore ⟨[97], [117], [115], [102]⟩ =
        .ok ⟨(fileRecords wStore [97] [117] [115] [102]).map (fun q => q.1)⟩) ∧
    List.Pairwise (fun x y : Int => y < x)
      ((fileRecords wStore [97] [117] [115] [102]).map (fun q => q.1))) :=
  ⟨by decide,
    C8_versions_spec (by decide) (by decide) (by decide) (by decide) (by decide)⟩

theorem C9_witness :
    ((⟨[], [117], [115], [102], 0, some ⟨1⟩⟩ : SaveRequest).AppName = [] ∨
      (⟨[], [117], [115], [102], 0, some ⟨1⟩⟩ : SaveRequest).UserID = [] ∨
      (⟨[], [117], [115], [102], 0, some ⟨1⟩⟩ : SaveRequest).SessionID = [] ∨
      (⟨[], [117], [115], [102], 0, some ⟨1⟩⟩ : SaveRequest).FileName = [] ∨
      (⟨[], [117], [115], [102], 0, some ⟨1⟩⟩ : SaveRequest).Part = none) ∧
    inMemoryService.Save wStore ⟨[], [117], [115], [102], 0, some ⟨1⟩⟩ =
      (wStore, .error .invalidArgument) ∧
    inMemoryService.Load wStore ⟨[97], [], [115], [102], 0⟩ =
      .error .invalidArgument ∧
    inMemoryService.Delete wStore ⟨[97], [117], [], [102], 0⟩ =
      (wStore, .error .invalidArgument) ∧
    inMemoryService.ListFiles wStore ⟨[97], [117], []⟩ =
      .error .invalidArgument ∧
    inMemoryService.Versions wStore ⟨[97], [117], [115], []⟩ =
      .error .invalidArgument ∧
    serviceError.invalidArgument ≠ serviceError.notFound := by
  refine ⟨by decide, ?_⟩
  have h := C9_validation wStore ⟨[], [117], [115], [102], 0, some ⟨1⟩⟩
    ⟨[97], [], [115], [102], 0⟩ ⟨[97], [117], [], [102], 0⟩ ⟨[97], [117], []⟩
    ⟨[97], [117], [115], []⟩ (by decide) (by decide) (by decide) (by decide)
    (by decide)
  exact h

theorem C10_witness :
    (WF wStore ∧ (-3 : Int) < 0) ∧
    (inMemoryService.Load wStore ⟨[97], [117], [115], [102], -3⟩ =
      inMemoryService.Load wStore ⟨[97], [117], [115], [102], 0⟩ ∧
    ((fileRecords wStore [97] [117] [115] [102] = [] ∧
        inMemoryService.Load wStore ⟨[97], [117], [115], [102], -3⟩ =
          .error .notFound) ∨
      (∃ vm pm, inMemoryService.Load wStore ⟨[97], [117], [115], [102], -3⟩ =
          .ok ⟨pm⟩ ∧
        (vm, pm) ∈ fileRecords wStore [97] [117] [115] [102] ∧
        ∀ r ∈ fileRecords wStore [97] [117] [115] [102], r.1 ≤ vm))) :=
  ⟨⟨by decide, by decide⟩,
    C10_negative_version_is_latest (by decide) (by decide) (by decide) (by decide)
      (by decide) (by decide)⟩

end ArtifactService

